import Mathlib

/-!
Verification development for `ops-lib-manifest` (canonical/ops-lib-manifest).

Shallow embedding of the library's core logic:
* `ops/manifests/manipulations.py` — `HashableResource`, `ManifestLabel`,
  `ConfigRegistry`
* `ops/manifests/manifest.py` — `_by_version`, `Manifests.resources`,
  `Manifests._safe_load` (`_flatten`), `Manifests.installed_resources`,
  `Manifests.status`, `Manifests.conflicting_resources`,
  `Manifests.delete_resources`
* `ops/manifests/collector.py` — `Collector.analyze_resources` (per-manifest
  analysis body), `Collector.unready`

External collaborators (the lightkube client, the filesystem and the YAML
parser) enter the embedding as explicit inputs: file contents as already
parsed document lists, cluster reads as oracle functions, cluster write
failures as per-resource outcome lists.  Python exceptions are modelled with
`Except`; Python `dict` / `OrderedDict` semantics are modelled with ordered
association lists.
-/

namespace OpsManifests

/-! ## Data model

Embedding of the lightkube resource shapes the library touches.  Lightkube
resources are duck-typed; the embedding gathers the fields the source reads
into one record with `Option` for fields Python may find `None` or absent.
-/

/-- Condition record, from `AnyCondition` in `ops/manifests/manipulations.py`
(only the fields the verified code reads are carried). -/
structure AnyCondition where
  status : String
  type : String
  message : Option String := none
  reason : Option String := none
deriving DecidableEq, Repr

/-- A resource's `.status` substructure: the source only reads
`.conditions`. -/
structure StatusObj where
  conditions : List AnyCondition
deriving DecidableEq, Repr

/-- A resource's `.metadata`: name, namespace and labels, each possibly
`None` in Python.  Label maps are insertion-ordered association lists,
mirroring Python `dict`. -/
structure Metadata where
  name : Option String := none
  nspace : Option String := none
  labels : Option (List (String × String)) := none
deriving DecidableEq, Repr

/-- One container of a pod spec; the source only reads and writes
`.image`. -/
structure Container where
  image : Option String := none
deriving DecidableEq, Repr

/-- The pod spec reachable for a pod-template-bearing kind.  In lightkube the
spec sits at a kind-dependent path (`obj.spec` for Pod,
`obj.spec.template.spec` for workload kinds,
`obj.spec.jobTemplate.spec.template.spec` for CronJob); the embedding stores
the pod spec reachable at that kind-appropriate path directly. -/
structure PodSpec where
  containers : Option (List Container) := none
  initContainers : Option (List Container) := none
deriving DecidableEq, Repr

/-- A lightkube `AnyResource` as far as the verified code observes it.
`kind` is `none` when the Python attribute is `None`; `typeName` models
`type(resource).__name__`, the fallback used by `HashableResource.kind`. -/
structure AnyResource where
  kind : Option String := none
  typeName : String := "AnyResource"
  metadata : Option Metadata := none
  spec : Option PodSpec := none
  status : Option StatusObj := none
deriving DecidableEq, Repr

/-- Python `x or y` for an optional string `x`: `None` and `""` are falsy. -/
def pyOrStr (a : Option String) (b : String) : String :=
  match a with
  | none => b
  | some s => if s = "" then b else s

/-! ## HashableResource

From `ops/manifests/manipulations.py`, class `HashableResource`: a wrapper
whose equality and hash use only the `(kind, namespace, name)` identity. -/

/-- Wrapper making a resource hashable by identity
(`HashableResource.__init__`). -/
structure HashableResource where
  resource : AnyResource
deriving DecidableEq, Repr

namespace HashableResource

/-- `HashableResource.kind`: `self.resource.kind or type(self.resource).__name__`. -/
def kind (r : HashableResource) : String :=
  pyOrStr r.resource.kind r.resource.typeName

/-- `HashableResource.namespace`: the metadata namespace when metadata is
present (`namespace` is a Lean keyword, hence `nspace`). -/
def nspace (r : HashableResource) : Option String :=
  match r.resource.metadata with
  | some md => md.nspace
  | none => none

/-- `HashableResource.name`: the metadata name when metadata is present. -/
def name (r : HashableResource) : Option String :=
  match r.resource.metadata with
  | some md => md.name
  | none => none

/-- `HashableResource.__uniq`: the identity triple. -/
def uniq (r : HashableResource) : String × Option String × Option String :=
  (r.kind, r.nspace, r.name)

/-- `HashableResource.__eq__`: comparison only of the unique parts (the
Python `isinstance` test is enforced by typing here). -/
def eqb (r other : HashableResource) : Bool :=
  other.uniq = r.uniq

/-- `HashableResource.__hash__`: a hash of the unique parts. -/
def hashVal (r : HashableResource) : UInt64 :=
  hash r.uniq

/-- `HashableResource.__str__`: `"/".join(filter(None, self.__uniq()))`. -/
def toStr (r : HashableResource) : String :=
  String.intercalate "/"
    (([some r.kind, r.nspace, r.name].filterMap id).filter (fun s => s ≠ ""))

/-- `HashableResource.status_conditions`.  The source distinguishes a
dict-typed status from a typed status object; both branches produce the
condition list of the status substructure, which the embedding stores
directly (a falsy/absent status yields `[]`). -/
def status_conditions (r : HashableResource) : List AnyCondition :=
  match r.resource.status with
  | none => []
  | some s => s.conditions

/-- Modelled from the spec: `HashableResource.labels` is referenced by
`Manifests.conflicting_resources` but its definition is not under `src/`
(the module revision there predates it).  Per the spec's ownership-label
reading it returns the resource's metadata labels, empty when metadata or
labels are absent. -/
def labels (r : HashableResource) : List (String × String) :=
  match r.resource.metadata with
  | none => []
  | some md => md.labels.getD []

end HashableResource

/-! ## Ordered-dict key collapse

`Manifests.resources`, `installed_resources` and `conflicting_resources` all
build an `OrderedDict` keyed by `HashableResource` and return its keys: for
duplicate keys (same identity) only the first-inserted key object survives,
in first-insertion order. -/

/-- One `OrderedDict` insertion `d[r] = None`: an existing key (by identity)
keeps its position and key object, a new key is appended. -/
def dictInsertKey (acc : List HashableResource) (r : HashableResource) :
    List HashableResource :=
  if acc.any (fun x => x.uniq = r.uniq) then acc else acc ++ [r]

/-- Keys of an `OrderedDict` built by inserting every element of `l` in
order. -/
def odKeys (l : List HashableResource) : List HashableResource :=
  l.foldl dictInsertKey []

/-- First-occurrence dedup by identity, the standard recursive
characterization of `odKeys` (proved equivalent below). -/
def firstOccurrences : List HashableResource → List HashableResource
  | [] => []
  | r :: rest =>
      r :: firstOccurrences (rest.filter (fun x => x.uniq ≠ r.uniq))
termination_by l => l.length
decreasing_by
  simp only [List.length_cons]
  exact Nat.lt_succ_of_le (List.length_filter_le _ _)

theorem foldl_dictInsertKey (l : List HashableResource) :
    ∀ acc : List HashableResource,
      l.foldl dictInsertKey acc =
        acc ++ firstOccurrences
          (l.filter (fun r => ¬ acc.any (fun x => x.uniq = r.uniq))) := by
  induction l with
  | nil => intro acc; simp [firstOccurrences]
  | cons r rest ih =>
    intro acc
    by_cases hmem : acc.any (fun x => x.uniq = r.uniq)
    · have h1 : List.foldl dictInsertKey acc (r :: rest) =
          List.foldl dictInsertKey acc rest := by
        simp only [List.foldl_cons, dictInsertKey, hmem, if_pos]
      rw [h1, ih]
      congr 2
      simp only [List.filter_cons]
      rw [if_neg]
      simp [hmem]
    · have h1 : List.foldl dictInsertKey acc (r :: rest) =
          List.foldl dictInsertKey (acc ++ [r]) rest := by
        simp only [List.foldl_cons, dictInsertKey, hmem, if_neg]
        simp [hmem]
      rw [h1, ih]
      have hfil : (r :: rest).filter (fun x => ¬ acc.any (fun y => y.uniq = x.uniq)) =
          r :: rest.filter (fun x => ¬ acc.any (fun y => y.uniq = x.uniq)) := by
        simp only [List.filter_cons]
        rw [if_pos]
        simp [hmem]
      rw [hfil]
      have hstep : firstOccurrences
            (r :: rest.filter (fun x => ¬ acc.any (fun y => y.uniq = x.uniq))) =
          r :: firstOccurrences
            ((rest.filter (fun x => ¬ acc.any (fun y => y.uniq = x.uniq))).filter
              (fun x => x.uniq ≠ r.uniq)) := by
        simp [firstOccurrences]
      rw [hstep]
      rw [List.filter_filter]
      have harr : (acc ++ [r]) ++ firstOccurrences
            (rest.filter (fun x => ¬ (acc ++ [r]).any (fun y => y.uniq = x.uniq))) =
          acc ++ r :: firstOccurrences
            (rest.filter (fun x => ¬ (acc ++ [r]).any (fun y => y.uniq = x.uniq))) := by
        simp
      rw [harr]
      congr 3
      apply List.filter_congr
      intro x _
      by_cases h1 : (acc.any fun y => decide (y.uniq = x.uniq)) = true
      · simp [h1]
      · by_cases h2 : r.uniq = x.uniq
        · have h2' : x.uniq = r.uniq := h2.symm
          simp [h1, h2']
        · have h2' : ¬ x.uniq = r.uniq := fun hc => h2 hc.symm
          simp [h1, h2, h2']

/-- `odKeys` is first-occurrence dedup by identity. -/
theorem odKeys_eq_firstOccurrences (l : List HashableResource) :
    odKeys l = firstOccurrences l := by
  have h := foldl_dictInsertKey l []
  simpa [odKeys] using h

theorem firstOccurrences_subset {l : List HashableResource}
    {x : HashableResource} (hx : x ∈ firstOccurrences l) : x ∈ l := by
  induction l using firstOccurrences.induct with
  | case1 => simp [firstOccurrences] at hx
  | case2 r rest ih =>
    rw [firstOccurrences] at hx
    rcases List.mem_cons.mp hx with h | h
    · simp [h]
    · exact List.mem_cons_of_mem _ (List.mem_of_mem_filter (ih h))

/-- Each identity occurs at most once in the dedup output. -/
theorem firstOccurrences_pairwise (l : List HashableResource) :
    (firstOccurrences l).Pairwise (fun a b => a.uniq ≠ b.uniq) := by
  induction l using firstOccurrences.induct with
  | case1 => simp [firstOccurrences]
  | case2 r rest ih =>
    rw [firstOccurrences]
    refine List.pairwise_cons.mpr ⟨?_, ih⟩
    intro x hx
    have hx' := firstOccurrences_subset hx
    have := List.of_mem_filter hx'
    simp only [ne_eq, decide_not, Bool.not_eq_true', decide_eq_false_iff_not] at this
    exact fun h => this h.symm

/-- An identity is present in the dedup output iff it is present in the
input. -/
theorem firstOccurrences_mem_uniq (l : List HashableResource)
    (u : String × Option String × Option String) :
    (∃ x ∈ firstOccurrences l, x.uniq = u) ↔ (∃ x ∈ l, x.uniq = u) := by
  induction l using firstOccurrences.induct with
  | case1 => simp [firstOccurrences]
  | case2 r rest ih =>
    rw [firstOccurrences]
    constructor
    · rintro ⟨x, hx, hu⟩
      rcases List.mem_cons.mp hx with h | h
      · exact ⟨x, by simp [h], hu⟩
      · rcases ih.mp ⟨x, h, hu⟩ with ⟨y, hy, hyu⟩
        exact ⟨y, List.mem_cons_of_mem _ (List.mem_of_mem_filter hy), hyu⟩
    · rintro ⟨x, hx, hu⟩
      rcases List.mem_cons.mp hx with h | h
      · exact ⟨r, by simp, by rw [← h, hu]⟩
      · by_cases hru : u = r.uniq
        · exact ⟨r, by simp, hru.symm⟩
        · have hxf : x ∈ rest.filter (fun y => y.uniq ≠ r.uniq) :=
            List.mem_filter.mpr ⟨h, by simp [hu, hru]⟩
          rcases ih.mpr ⟨x, hxf, hu⟩ with ⟨y, hy, hyu⟩
          exact ⟨y, List.mem_cons_of_mem _ hy, hyu⟩

theorem find?_filter_of_imp {p q : HashableResource → Bool}
    (l : List HashableResource) (himp : ∀ y, p y = true → q y = true) :
    (l.filter q).find? p = l.find? p := by
  induction l with
  | nil => simp
  | cons a rest ih =>
    by_cases hp : p a
    · have hq := himp a hp
      simp [List.filter_cons, hq, List.find?_cons, hp]
    · simp only [Bool.not_eq_true] at hp
      by_cases hq : q a
      · simp [List.filter_cons, hq, List.find?_cons, hp, ih]
      · simp only [Bool.not_eq_true] at hq
        simp [List.filter_cons, hq, List.find?_cons, hp, ih]

/-- Every element of the dedup output is the first element of the input with
its identity. -/
theorem firstOccurrences_find? (l : List HashableResource)
    {x : HashableResource} (hx : x ∈ firstOccurrences l) :
    l.find? (fun y => y.uniq = x.uniq) = some x := by
  induction l using firstOccurrences.induct with
  | case1 => simp [firstOccurrences] at hx
  | case2 r rest ih =>
    rw [firstOccurrences] at hx
    rcases List.mem_cons.mp hx with h | h
    · subst h
      simp [List.find?_cons]
    · have hxr : x.uniq ≠ r.uniq := by
        have hx' := firstOccurrences_subset h
        have := List.of_mem_filter hx'
        simpa using this
      have hhead : decide (r.uniq = x.uniq) = false := by
        simp only [decide_eq_false_iff_not]
        exact fun hc => hxr hc.symm
      rw [List.find?_cons]
      simp only [hhead]
      have := ih h
      rw [← this]
      symm
      apply find?_filter_of_imp
      intro y hy
      simp only [decide_eq_true_eq] at hy
      simpa [hy] using hxr

/-! ## Manipulations and the resource-resolution pipeline

From `ops/manifests/manifest.py`, `Manifests.resources`.  A manipulation is
an `Addition` (iterated for produced resources, falsy results dropped), a
`Subtraction` (a predicate dropping static resources), a `Patch` (an
in-place mutation, modelled as a function) or a plain base `Manipulation`.
The Python classes are disjoint in the library, so a single tag suffices. -/

inductive Manipulation where
  | addition (adds : List (Option AnyResource))
  | subtraction (pred : AnyResource → Bool)
  | patch (f : AnyResource → AnyResource)
  | base

/-- The inputs of `Manifests.resources`: the manipulation list and the
file-loaded static resources.  File discovery, YAML parsing and
`codecs.from_dict` are external; `staticResources` carries their output in
sorted-filename document order. -/
structure ManifestsModel where
  manipulations : List Manipulation
  staticResources : List AnyResource

namespace Manifests

/-- Addition-produced resources: `filter(None, (add for manipulate in
self.manipulations if isinstance(manipulate, Addition) for add in
manipulate))`, in manipulation-list order. -/
def additions (m : ManifestsModel) : List AnyResource :=
  ((m.manipulations.map (fun man =>
    match man with
    | .addition l => l
    | _ => [])).flatten).filterMap id

/-- Statics after every `Subtraction` manipulation: `statics = [rsc for rsc
in statics if not manipulate(rsc)]`, applied per subtraction in
manipulation-list order. -/
def subtracted (m : ManifestsModel) : List AnyResource :=
  m.manipulations.foldl
    (fun st man =>
      match man with
      | .subtraction p => st.filter (fun r => !(p r))
      | _ => st)
    m.staticResources

/-- Application of every `Patch` manipulation, in manipulation-list order, to
one resource. -/
def patchAll (m : ManifestsModel) (r : AnyResource) : AnyResource :=
  m.manipulations.foldl
    (fun r man =>
      match man with
      | .patch f => f r
      | _ => r)
    r

/-- The concatenated, patched resource list before deduplication:
`all_resources = additions + statics`, then each resource run through every
patch. -/
def preDedup (m : ManifestsModel) : List HashableResource :=
  ((additions m ++ subtracted m).map (patchAll m)).map HashableResource.mk

/-- `Manifests.resources`: `OrderedDict((HashableResource(obj), None) for obj
in all_resources).keys()`. -/
def resources (m : ManifestsModel) : List HashableResource :=
  odKeys (preDedup m)

end Manifests

/-! ## ManifestLabel

From `ops/manifests/manipulations.py`, `ManifestLabel.__call__`.  Label maps
are Python dicts, modelled as insertion-ordered association lists. -/

/-- One Python `dict` update `d[k] = v`: an existing key keeps its position
and gets the new value, a new key is appended. -/
def dictUpdate (d : List (String × String)) (k v : String) :
    List (String × String) :=
  if d.any (fun p => p.1 = k) then
    d.map (fun p => if p.1 = k then (k, v) else p)
  else d ++ [(k, v)]

/-- Modelled from the spec: the label keys live in
`ops/manifests/literals.py`, which is not under `src/`.  The values are
fixed by `ManifestLabel.__call__` and the unit tests: the application
identifier key. -/
def APP_LABEL : String := "juju.io/application"

/-- Modelled from the spec: the manifest-name identifier key from the
missing `ops/manifests/literals.py`. -/
def MANIFEST_LABEL : String := "juju.io/manifest"

/-- The composite manifest-name plus release identifier key, hard-coded in
`ManifestLabel.__call__`. -/
def VERSION_LABEL : String := "juju.io/manifest-version"

/-- `ManifestLabel.__call__`: when the object has metadata, ensure a label
dict exists (`obj.metadata.labels or {}` — the generic-resource branch
performs the same normalization) and update it with the three ownership
labels, in the literal-dict order of the source.  `appName` is
`self.manifests.model.app.name`, `manifestName` is `self.manifests.name`,
`version` is `self.manifests.current_release`. -/
def manifestLabel (appName manifestName version : String)
    (obj : AnyResource) : AnyResource :=
  match obj.metadata with
  | none => obj
  | some md =>
      let labels0 := md.labels.getD []
      let labels1 := dictUpdate labels0 APP_LABEL appName
      let labels2 := dictUpdate labels1 MANIFEST_LABEL manifestName
      let labels3 := dictUpdate labels2 VERSION_LABEL
        (manifestName ++ "-" ++ version)
      { obj with metadata := some { md with labels := some labels3 } }

/-- Python `d.get(k)`: the value stored for key `k`, or `None`. -/
def pyGet (d : List (String × String)) (k : String) : Option String :=
  match d with
  | [] => none
  | p :: rest => if p.1 = k then some p.2 else pyGet rest k

theorem pyGet_map_update (d : List (String × String)) (k v : String)
    (h : d.any (fun p => p.1 = k) = true) :
    pyGet (d.map (fun p => if p.1 = k then (k, v) else p)) k = some v := by
  induction d with
  | nil => simp at h
  | cons p rest ih =>
    simp only [List.any_cons, Bool.or_eq_true, decide_eq_true_eq] at h
    by_cases hp : p.1 = k
    · simp [pyGet, hp]
    · have hrest : rest.any (fun q => q.1 = k) = true := by
        apply List.any_eq_true.mpr
        rcases h with h | h
        · exact absurd h hp
        · rcases List.any_eq_true.mp h with ⟨q, hq, hqk⟩
          exact ⟨q, hq, hqk⟩
      simp only [List.map_cons, if_neg hp, pyGet]
      exact ih hrest

theorem pyGet_append_single (d : List (String × String)) (k v : String)
    (h : ¬ d.any (fun p => p.1 = k) = true) :
    pyGet (d ++ [(k, v)]) k = some v := by
  induction d with
  | nil => simp [pyGet]
  | cons p rest ih =>
    simp only [List.any_cons, Bool.or_eq_true, decide_eq_true_eq] at h
    push_neg at h
    simp only [List.cons_append, pyGet]
    rw [if_neg h.1]
    exact ih h.2

/-- Updating key `k` returns `v` when `k` is looked up. -/
theorem dictUpdate_pyGet_self (d : List (String × String)) (k v : String) :
    pyGet (dictUpdate d k v) k = some v := by
  unfold dictUpdate
  by_cases h : d.any (fun p => p.1 = k) = true
  · rw [if_pos h]
    exact pyGet_map_update d k v h
  · rw [if_neg h]
    exact pyGet_append_single d k v h

/-- Updating key `k` leaves every other key's value unchanged. -/
theorem dictUpdate_pyGet_other (d : List (String × String)) (k v k' : String)
    (hk : k' ≠ k) : pyGet (dictUpdate d k v) k' = pyGet d k' := by
  unfold dictUpdate
  by_cases h : d.any (fun p => p.1 = k) = true
  · rw [if_pos h]
    clear h
    induction d with
    | nil => simp
    | cons p rest ih =>
      by_cases hp : p.1 = k
      · have hne : ¬ k = k' := fun hc => hk hc.symm
        have hne' : ¬ p.1 = k' := by rw [hp]; exact hne
        simp only [List.map_cons, if_pos hp, pyGet]
        rw [if_neg hne, if_neg hne']
        exact ih
      · simp only [List.map_cons, if_neg hp, pyGet]
        by_cases hq : p.1 = k'
        · rw [if_pos hq, if_pos hq]
        · rw [if_neg hq, if_neg hq]
          exact ih
  · rw [if_neg h]
    clear h
    induction d with
    | nil =>
      have hne : ¬ k = k' := fun hc => hk hc.symm
      simp [pyGet, hne]
    | cons p rest ih =>
      simp only [List.cons_append, pyGet]
      by_cases hq : p.1 = k'
      · rw [if_pos hq, if_pos hq]
      · rw [if_neg hq, if_neg hq]
        exact ih

theorem dictUpdate_idem (d : List (String × String)) (k v : String) :
    dictUpdate (dictUpdate d k v) k v = dictUpdate d k v := by
  unfold dictUpdate
  by_cases h : d.any (fun p => p.1 = k)
  · rw [if_pos h]
    have hmem : (d.map (fun p => if p.1 = k then (k, v) else p)).any
        (fun p => p.1 = k) := by
      rw [List.any_map]
      rcases List.any_eq_true.mp h with ⟨p, hp, hpk⟩
      apply List.any_eq_true.mpr
      refine ⟨p, hp, ?_⟩
      simp only [decide_eq_true_eq] at hpk
      simp [Function.comp, hpk]
    rw [if_pos hmem, List.map_map]
    apply List.map_congr_left
    intro p _
    by_cases hp : p.1 = k
    · simp [Function.comp, hp]
    · simp [Function.comp, hp]
  · rw [if_neg h]
    have hmem : (d ++ [(k, v)]).any (fun p => p.1 = k) := by
      simp
    rw [if_pos hmem, List.map_append]
    have hd : d.map (fun p => if p.1 = k then (k, v) else p) = d := by
      conv_rhs => rw [← List.map_id d]
      apply List.map_congr_left
      intro p hp
      have : ¬ p.1 = k := by
        intro hc
        exact absurd (List.any_eq_true.mpr ⟨p, hp, by simp [hc]⟩) h
      simp [this]
    simp [hd]

theorem dictUpdate_preserves_other_keys (d : List (String × String))
    (k v : String) (p : String × String) (hp : p ∈ d) (hne : p.1 ≠ k) :
    p ∈ dictUpdate d k v := by
  unfold dictUpdate
  by_cases h : d.any (fun q => q.1 = k)
  · rw [if_pos h]
    have : p = (fun q => if q.1 = k then (k, v) else q) p := by simp [hne]
    rw [this]
    exact List.mem_map_of_mem _ hp
  · rw [if_neg h]
    exact List.mem_append_left _ hp

/-! ## Version comparator

From `ops/manifests/manifest.py`: `_VERSION_SPLIT = re.compile(r"(\d+)")`
and `_by_version`.  `re.split` with a capturing digit group returns the
alternating list `[nondigit, digits, nondigit, ..., nondigit]` (boundary
nondigit pieces may be empty); `convert` turns each all-digit piece into an
integer.  `Manifests.releases` sorts release names with this key,
descending (`sorted(..., key=_by_version, reverse=True)`). -/

/-- One element of the mixed string/int version key
(`Version = List[Union[str, int]]`). -/
inductive VPart where
  | s (v : String)
  | n (v : Nat)
deriving DecidableEq, Repr

/-- Python `str.isdigit` restricted to ASCII digits (release names are
ASCII). -/
def pyIsdigit (s : String) : Bool :=
  !s.toList.isEmpty && s.toList.all Char.isDigit

/-- Numeric value of an all-digit string (`int(part)`). -/
def natOfDigits (s : String) : Nat :=
  s.toList.foldl (fun acc c => acc * 10 + (c.toNat - '0'.toNat)) 0

/-- `re.split(r"(\d+)", ·)` on the character list: alternating
non-digit/digit chunks, first and last always non-digit (possibly
empty). -/
def reSplitDigits : List Char → List String
  | [] => [""]
  | c :: rest =>
    let tail := reSplitDigits rest
    if c.isDigit then
      match rest with
      | c2 :: _ =>
        if c2.isDigit then
          match tail with
          | _ :: d :: ts => "" :: (String.mk [c] ++ d) :: ts
          | t => t
        else "" :: String.mk [c] :: tail
      | [] => "" :: String.mk [c] :: tail
    else
      match tail with
      | h :: ts => (String.mk [c] ++ h) :: ts
      | [] => [String.mk [c]]

/-- `_by_version`: split on digit runs, converting digit runs to
integers. -/
def _by_version (version : String) : List VPart :=
  (reSplitDigits version.toList).map
    (fun part => if pyIsdigit part then VPart.n (natOfDigits part) else VPart.s part)

/-- Python `<` on two version-key elements: `int < int` numerically,
`str < str` lexicographically, mixed types raise `TypeError`
(modelled as `none`). -/
def vpartLtO : VPart → VPart → Option Bool
  | .n a, .n b => some (a < b)
  | .s a, .s b => some (a < b)
  | _, _ => none

/-- Python `<` on version keys (list comparison): at the first pair of
unequal elements the element comparison decides; a strict prefix is
smaller. -/
def vlistLtO : List VPart → List VPart → Option Bool
  | [], [] => some false
  | [], _ :: _ => some true
  | _ :: _, [] => some false
  | x :: xs, y :: ys => if x = y then vlistLtO xs ys else vpartLtO x y

/-- The order in which `Manifests.releases` lists two release names: with
`reverse=True`, `a` precedes `b` exactly when `b`'s key compares strictly
below `a`'s. -/
def releasesBefore (a b : String) : Prop :=
  vlistLtO (_by_version b) (_by_version a) = some true

/-! ## ConfigRegistry

From `ops/manifests/manipulations.py`, `ConfigRegistry.__call__`. -/

/-- Kinds whose pod spec is read directly from `obj.spec`. -/
def podKinds : List String := ["Pod"]

/-- Kinds whose pod spec is read from `obj.spec.template.spec`. -/
def templateKinds : List String :=
  ["DaemonSet", "Deployment", "Job", "ReplicaSet", "ReplicationController",
   "StatefulSet"]

/-- Kinds whose pod spec is read from
`obj.spec.jobTemplate.spec.template.spec`. -/
def cronKinds : List String := ["CronJob"]

/-- Split a character list at the first `'/'`: `none` when no slash
occurs. -/
def splitFirstSlash : List Char → Option (List Char × List Char)
  | [] => none
  | c :: rest =>
      if c = '/' then some ([], rest)
      else (splitFirstSlash rest).map (fun pr => (c :: pr.1, pr.2))

/-- Python `full_image.split("/", 1)`: one piece when no slash occurs, two
pieces split at the first slash otherwise. -/
def pySplitSlash1 (s : String) : List String :=
  match splitFirstSlash s.toList with
  | none => [s]
  | some (a, b) => [String.mk a, String.mk b]

/-- One loop iteration of `ConfigRegistry.__call__`: skip a falsy image,
otherwise unpack `_, image = full_image.split("/", 1)` (a single piece
raises `ValueError`) and prepend the registry. -/
def rewriteContainer (registry : String) (c : Container) :
    Except String Container :=
  match c.image with
  | none => Except.ok c
  | some full_image =>
      if full_image = "" then Except.ok c
      else
        match pySplitSlash1 full_image with
        | [_, image] =>
            Except.ok { c with image := some (registry ++ "/" ++ image) }
        | _ => Except.error "ValueError: not enough values to unpack"

/-- The kind dispatch of `ConfigRegistry.__call__` choosing where the pod
spec lives: the pod spec sits at the kind-appropriate path (see `PodSpec`);
an unsupported kind yields `spec = None`. -/
def configRegistrySpec (obj : AnyResource) : Option PodSpec :=
  match obj.kind with
  | some k =>
      if k ∈ podKinds then obj.spec
      else if k ∈ templateKinds then obj.spec
      else if k ∈ cronKinds then obj.spec
      else none
  | none => none

/-- `ConfigRegistry.__call__`.  `registry` is
`self.manifests.config.get("image-registry")` (`None` or `""` are falsy and
make the call a no-op).  The loop covers `spec.containers` then
`spec.initContainers` in order, and any `ValueError` aborts the call. -/
def configRegistry (registry : Option String) (obj : AnyResource) :
    Except String AnyResource :=
  match registry with
  | none => Except.ok obj
  | some reg =>
      if reg = "" then Except.ok obj
      else
        match configRegistrySpec obj with
        | none => Except.ok obj
        | some s => do
            let cs ← match s.containers with
              | none => Except.ok (none : Option (List Container))
              | some l => do
                  Except.ok (some (← l.mapM (rewriteContainer reg)))
            let ics ← match s.initContainers with
              | none => Except.ok (none : Option (List Container))
              | some l => do
                  Except.ok (some (← l.mapM (rewriteContainer reg)))
            Except.ok { obj with
              spec := some { s with containers := cs, initContainers := ics } }

/-- The portion of an image reference after its first `/` (the image is
returned whole when no slash occurs; callers only use the slash case). -/
def afterFirstSlash (s : String) : String :=
  match splitFirstSlash s.toList with
  | none => s
  | some pr => String.mk pr.2

/-- A character list contains a slash iff `splitFirstSlash` finds one. -/
theorem splitFirstSlash_none_iff (cs : List Char) :
    splitFirstSlash cs = none ↔ '/' ∉ cs := by
  induction cs with
  | nil => simp [splitFirstSlash]
  | cons c rest ih =>
    by_cases hc : c = '/'
    · subst hc
      simp [splitFirstSlash]
    · simp only [splitFirstSlash, if_neg hc, List.mem_cons]
      constructor
      · intro h hmem
        rcases Option.map_eq_none.mp h with h'
        rcases hmem with hmem | hmem
        · exact hc hmem.symm
        · exact (ih.mp h') hmem
      · intro h
        have : '/' ∉ rest := fun hm => h (Or.inr hm)
        rw [ih.mpr this]
        rfl

/-! ## Declaration-file loading

From `ops/manifests/manifest.py`, `Manifests._safe_load` and its inner
`_flatten`.  `yaml.safe_load_all` is external; its output enters as a list
of already parsed YAML values. -/

/-- A parsed YAML value. -/
inductive YVal where
  | mapping (fields : List (String × YVal))
  | list (items : List YVal)
  | str (s : String)
  | num (n : Int)
  | bool (b : Bool)
  | null

/-- Python truthiness of a YAML value. -/
def pyTruthyY : YVal → Bool
  | .mapping m => !m.isEmpty
  | .list l => !l.isEmpty
  | .str s => s ≠ ""
  | .num n => n ≠ 0
  | .bool b => b
  | .null => false

/-- Python `rsc.get(k)` on a parsed mapping. -/
def yGet : List (String × YVal) → String → Option YVal
  | [], _ => none
  | p :: rest, k => if p.1 = k then some p.2 else yGet rest k

/-- Whether `rsc.get(k)` is truthy. -/
def truthyGet (fields : List (String × YVal)) (k : String) : Bool :=
  match yGet fields k with
  | none => false
  | some v => pyTruthyY v

/-- Python iteration over a value (`for rsc in raw_resources`): lists yield
items, strings yield one-character strings, mappings yield their keys,
anything else raises `TypeError`. -/
def pyIterY : YVal → Except String (List YVal)
  | .list l => Except.ok l
  | .str s => Except.ok (s.toList.map (fun c => .str (String.mk [c])))
  | .mapping m => Except.ok (m.map (fun p => .str p.1))
  | _ => Except.error "TypeError: object is not iterable"

/-- A `log.warning` emitted by `_flatten` for a skipped document. -/
inductive LoadWarning where
  | nonDict (rsc : YVal)
  | nonK8s (rsc : YVal)

/-- Result of `_flatten`: the surviving resource mappings in traversal
order, plus the warnings in emission order. -/
structure FlattenOut where
  resources : List (List (String × YVal))
  warnings : List LoadWarning

/-- How `_flatten` treats one document, before any recursion. -/
inductive DocClass where
  | nonDict
  | nonK8s
  | keep (fields : List (String × YVal))
  | listKind (fields : List (String × YVal))
  | attrError

/-- The per-document branch conditions of `_flatten`, in source order: a
non-mapping document is a `nonDict` skip; a mapping whose `kind` or
`apiVersion` is missing or falsy is a `nonK8s` skip; a string `kind` ending
in `"List"` is flattened through its items; any other string `kind` is
kept; a truthy non-string `kind` raises `AttributeError` on `.endswith`. -/
def classifyDoc : YVal → DocClass
  | .mapping fields =>
      if !truthyGet fields "kind" || !truthyGet fields "apiVersion" then
        .nonK8s
      else
        match yGet fields "kind" with
        | some (.str s) =>
            if s.endsWith "List" then .listKind fields else .keep fields
        | _ => .attrError
  | _ => .nonDict

/-- One document's contribution to `_flatten`: skips contribute one warning,
kept mappings contribute themselves, a `*List` kind defers to `recurse` on
the iteration of its `items` (default `[]`). -/
def flattenHead (recurse : List YVal → Except String FlattenOut)
    (rsc : YVal) : Except String FlattenOut :=
  match classifyDoc rsc with
  | .nonDict => Except.ok ⟨[], [.nonDict rsc]⟩
  | .nonK8s => Except.ok ⟨[], [.nonK8s rsc]⟩
  | .keep fields => Except.ok ⟨[fields], []⟩
  | .attrError => Except.error "AttributeError: endswith"
  | .listKind fields =>
      match pyIterY ((yGet fields "items").getD (YVal.list [])) with
      | Except.ok iter => recurse iter
      | Except.error e => Except.error e

/-- One traversal level of `_flatten`: resources and warnings accumulate in
order, an exception aborts the whole load. -/
def flattenStep (recurse : List YVal → Except String FlattenOut) :
    List YVal → Except String FlattenOut
  | [] => Except.ok ⟨[], []⟩
  | rsc :: rest =>
      match flattenHead recurse rsc with
      | Except.ok head =>
          match flattenStep recurse rest with
          | Except.ok tail =>
              Except.ok ⟨head.resources ++ tail.resources,
                head.warnings ++ tail.warnings⟩
          | Except.error e => Except.error e
      | Except.error e => Except.error e

/-- `_flatten`, with `fuel` bounding the `*List` nesting depth (Python's
recursion limit): descending through a `*List` at zero fuel models
`RecursionError`. -/
def flatten : Nat → List YVal → Except String FlattenOut
  | 0, docs => flattenStep
      (fun _ => Except.error
        "RecursionError: maximum recursion depth exceeded") docs
  | fuel + 1, docs => flattenStep (flatten fuel) docs

/-- The descent `flatten` passes to `flattenStep` at a given fuel. -/
def flattenRecurse : Nat → List YVal → Except String FlattenOut
  | 0 => fun _ => Except.error
      "RecursionError: maximum recursion depth exceeded"
  | fuel + 1 => flatten fuel

theorem flatten_eq_step (fuel : Nat) (docs : List YVal) :
    flatten fuel docs = flattenStep (flattenRecurse fuel) docs := by
  cases fuel <;> rfl

theorem flattenStep_cons_ok (recurse : List YVal → Except String FlattenOut)
    (d : YVal) (rest : List YVal) (h : FlattenOut)
    (hd : flattenHead recurse d = Except.ok h) :
    flattenStep recurse (d :: rest) = (flattenStep recurse rest).map
      (fun t => ⟨h.resources ++ t.resources, h.warnings ++ t.warnings⟩) := by
  cases ht : flattenStep recurse rest with
  | ok t =>
    conv_lhs => unfold flattenStep
    simp only [hd, ht, Except.map]
  | error e =>
    conv_lhs => unfold flattenStep
    simp only [hd, ht, Except.map]

/-! ## Installed resources, status and unready

From `ops/manifests/manifest.py` (`installed_resources`, `status`) and
`ops/manifests/collector.py` (`all_conditions`, `unready`).  The cluster
read `self.client.get(type(obj.resource), obj.name, namespace=obj.namespace)`
is external: `fetch` returns the live resource, or `none` when the call
raised (`ManifestClientError`, `ApiError` or `HTTPError` — all three are
caught, logged and skipped). -/

/-- The loop of `Manifests.installed_resources`: each expected resource is
fetched by identity; a failed fetch is logged and skipped, a successful
fetch contributes its live wrapped representation. -/
def installedLoop (fetch : HashableResource → Option AnyResource) :
    List HashableResource → List HashableResource
  | [] => []
  | obj :: rest =>
      match fetch obj with
      | none => installedLoop fetch rest
      | some next_rsc => HashableResource.mk next_rsc :: installedLoop fetch rest

/-- `Manifests.installed_resources`: the loop results collapsed through the
`OrderedDict` and returned as a (frozen) set, modelled as the
identity-deduplicated list. -/
def Manifests.installed_resources (expected : List HashableResource)
    (fetch : HashableResource → Option AnyResource) : List HashableResource :=
  odKeys (installedLoop fetch expected)

/-- `Manifests.status`: installed resources with a truthy
`status_conditions`. -/
def Manifests.status (expected : List HashableResource)
    (fetch : HashableResource → Option AnyResource) : List HashableResource :=
  (Manifests.installed_resources expected fetch).filter
    (fun r => !r.status_conditions.isEmpty)

/-- `Manifests.is_ready` default implementation: the condition's status
string equals `"True"`. -/
def Manifests.is_ready (cond : AnyCondition) : Bool :=
  cond.status = "True"

/-- `Collector.all_conditions` restricted to one manifest: every condition
of every status-bearing installed resource, tagged with the manifest
name. -/
def Collector.all_conditions (name : String) (expected : List HashableResource)
    (fetch : HashableResource → Option AnyResource) :
    List (String × HashableResource × AnyCondition) :=
  (Manifests.status expected fetch).flatMap
    (fun obj => obj.status_conditions.map (fun cond => (name, obj, cond)))

/-- `Collector.unready` restricted to one manifest with the default
`is_ready`: sorted "name: resource is not type" lines for conditions whose
readiness is `False`. -/
def Collector.unready (name : String) (expected : List HashableResource)
    (fetch : HashableResource → Option AnyResource) : List String :=
  ((Collector.all_conditions name expected fetch).filterMap
    (fun t =>
      if Manifests.is_ready t.2.2 = false then
        some (t.1 ++ ": " ++ t.2.1.toStr ++ " is not " ++ t.2.2.type)
      else none)).mergeSort (fun a b => a ≤ b)

/-! ## Conflict classification

From `ops/manifests/manifest.py`, `Manifests.conflicting_resources`. -/

/-- The loop of `Manifests.conflicting_resources`: for each installed
resource find the expected resource of the same identity (`next((m for m in
expected if m == obj), None)`); no match raises `ManifestClientError`;
otherwise the expected match is recorded when the application or manifest
ownership label of the live resource differs from the match's
(`result[match] = None`). -/
def conflictLoop (expected : List HashableResource) :
    List HashableResource → Except String (List HashableResource)
  | [] => Except.ok []
  | obj :: rest =>
      match expected.find? (fun m => HashableResource.eqb m obj) with
      | some mtch =>
          let app := pyGet obj.labels APP_LABEL
          let match_app := pyGet mtch.labels APP_LABEL
          let nme := pyGet obj.labels MANIFEST_LABEL
          let match_name := pyGet mtch.labels MANIFEST_LABEL
          match conflictLoop expected rest with
          | Except.ok tail =>
              Except.ok ((if app ≠ match_app ∨ nme ≠ match_name then [mtch]
                else []) ++ tail)
          | Except.error e => Except.error e
      | none =>
          Except.error ("Unexpected resource installed: " ++ obj.toStr)

/-- `Manifests.conflicting_resources`: the recorded matches, collapsed
through the `OrderedDict` and returned as a frozen set. -/
def Manifests.conflicting_resources (expected installed : List HashableResource) :
    Except String (List HashableResource) :=
  match conflictLoop expected installed with
  | Except.ok hits => Except.ok (odKeys hits)
  | Except.error e => Except.error e

/-! ## Deletion with ignorable errors

From `ops/manifests/manifest.py`, `Manifests.delete_resources`.  The client
call `self._delete(...)` is external; each resource enters paired with the
error it raised, if any. -/

/-- An `ApiError`/`HTTPError` raised by a delete: `strMsg` is `str(ex)`,
`statusMessage` is `ex.status.message` when the exception has a status with
a non-`None` message. -/
structure DeleteError where
  strMsg : String
  statusMessage : Option String := none
deriving DecidableEq, Repr

/-- Python `str.lower` restricted to ASCII (the classified error messages
and resource kinds are ASCII). -/
def pyToLower (s : String) : String :=
  String.mk (s.toList.map (fun c =>
    if 'A' ≤ c ∧ c ≤ 'Z' then Char.ofNat (c.toNat + 32) else c))

/-- Whether `pat` occurs as a contiguous substring (Python `pat in s` on the
character lists). -/
def containsSub (pat : List Char) : List Char → Bool
  | [] => pat.isEmpty
  | c :: rest => pat.isPrefixOf (c :: rest) || containsSub pat rest

/-- Python `pat in s` for strings. -/
def pyInStr (pat s : String) : Bool :=
  containsSub pat.toList s.toList

/-- Outcome of the `delete_resources` loop: either every resource was
attempted, or a wrapped `ManifestClientError` was raised at `failed` leaving
`remaining` unattempted. -/
inductive DeleteOutcome where
  | completed
  | raised (failed : HashableResource) (remaining : List HashableResource)
deriving DecidableEq, Repr

/-- `Manifests.delete_resources`: resources are deleted in input order; a
raised error's message (`ex.status.message` when available, else `str(ex)`)
is classified — "not found" with `ignore_not_found`, or "(unauthorized)"
with `ignore_unauthorized`, is logged and skipped; any other failure raises
immediately. -/
def Manifests.delete_resources (ignore_not_found ignore_unauthorized : Bool) :
    List (HashableResource × Option DeleteError) → DeleteOutcome
  | [] => .completed
  | (_, none) :: rest =>
      Manifests.delete_resources ignore_not_found ignore_unauthorized rest
  | (obj, some ex) :: rest =>
      let msg := ex.statusMessage.getD ex.strMsg
      let not_found := ignore_not_found && pyInStr "not found" (pyToLower msg)
      let unauthed := ignore_unauthorized && pyInStr "(unauthorized)" (pyToLower msg)
      if not_found || unauthed then
        Manifests.delete_resources ignore_not_found ignore_unauthorized rest
      else .raised obj (rest.map (fun p => p.1))

/-! ## Drift analysis

From `ops/manifests/collector.py`, the per-manifest body of
`Collector.analyze_resources`.  The four live set inputs (`labelled`,
`expected`, `installed`) come from the resolver and the cluster; Python
`frozenset` algebra over `HashableResource` works up to identity, modelled
with identity-membership list operations. -/

/-- Identity membership in a resource collection. -/
def memById (r : HashableResource) (l : List HashableResource) : Bool :=
  l.any (fun x => x.uniq = r.uniq)

/-- Identity-based set intersection (`a & b`). -/
def interById (a b : List HashableResource) : List HashableResource :=
  a.filter (fun r => memById r b)

/-- Identity-based set difference (`a - b`). -/
def diffById (a b : List HashableResource) : List HashableResource :=
  a.filter (fun r => !(memById r b))

/-- `ResourceAnalysis` from `ops/manifests/collector.py`. -/
structure ResourceAnalysis where
  conflicting : List HashableResource
  correct : List HashableResource
  extra : List HashableResource
  missing : List HashableResource

/-- The closure `kind_filter` of `analyze_resources`: with an empty filter
everything passes, otherwise the lowered kind must be among the lowered
filter entries (`res_filter = set(_.lower() for _ in filter_resources)`). -/
def kindAllowed (filter_resources : List String) (rsc : HashableResource) :
    Bool :=
  let res_filter := filter_resources.map pyToLower
  res_filter.isEmpty || res_filter.contains (pyToLower rsc.kind)

/-- The per-manifest body of `Collector.analyze_resources`: `conflicting =
conflicting_resources(installed)`, `correct = expected & (installed -
conflicting)`, `extra = labelled - expected`, `missing = expected -
(installed - conflicting)`, all four filtered by the case-insensitive kind
allow-list (`kind_filter`). -/
def Collector.analyzeOne (expected installed labelled : List HashableResource)
    (filter_resources : List String) : Except String ResourceAnalysis := do
  let conflicting ← Manifests.conflicting_resources expected installed
  let correct := interById expected (diffById installed conflicting)
  let extra := diffById labelled expected
  let missing := diffById expected (diffById installed conflicting)
  Except.ok ⟨conflicting.filter (kindAllowed filter_resources),
    correct.filter (kindAllowed filter_resources),
    extra.filter (kindAllowed filter_resources),
    missing.filter (kindAllowed filter_resources)⟩

/-! ## Claim theorems -/

/-- C6: for all version strings `a` and `b` that differ at a numeric
segment, the release version comparator used by `releases` orders the
numerically larger string first in the descending sort, regardless of the
digit counts of the segments (the concrete chain "v1.1.10" before "v1.1.9"
before "v1.1.2" is the witness instantiation). -/
theorem releases_orders_numeric_desc (a b : String) (xs : List VPart)
    (n1 n2 : Nat) (ys1 ys2 : List VPart)
    (ha : _by_version a = xs ++ VPart.n n1 :: ys1)
    (hb : _by_version b = xs ++ VPart.n n2 :: ys2)
    (h : n2 < n1) : releasesBefore a b := by
  unfold releasesBefore
  rw [ha, hb]
  clear ha hb
  induction xs with
  | nil =>
    have hne : VPart.n n2 ≠ VPart.n n1 := by
      intro hc
      cases hc
      omega
    simp only [List.nil_append, vlistLtO, if_neg hne, vpartLtO]
    simp [h]
  | cons x rest ih =>
    simpa [vlistLtO] using ih

/-- Witness for C6: the comparator places "v1.1.10" before "v1.1.9" and
"v1.1.9" before "v1.1.2" in the descending release order. -/
theorem releases_orders_numeric_desc_witness :
    releasesBefore "v1.1.10" "v1.1.9" ∧ releasesBefore "v1.1.9" "v1.1.2" :=
  ⟨releases_orders_numeric_desc "v1.1.10" "v1.1.9"
      [VPart.s "v", VPart.n 1, VPart.s ".", VPart.n 1, VPart.s "."]
      10 9 [VPart.s ""] [VPart.s ""] (by decide) (by decide) (by decide),
   releases_orders_numeric_desc "v1.1.9" "v1.1.2"
      [VPart.s "v", VPart.n 1, VPart.s ".", VPart.n 1, VPart.s "."]
      9 2 [VPart.s ""] [VPart.s ""] (by decide) (by decide) (by decide)⟩

/-- Label map of a raw resource, as `ManifestLabel` observes it. -/
def labelsOfRsc (obj : AnyResource) : List (String × String) :=
  (HashableResource.mk obj).labels

/-- C7: for every resource with metadata, one `ManifestLabel` application
leaves the label map holding the application identifier, the manifest-name
identifier and the composite manifest-name+release identifier; every other
key keeps its prior value (and prior absence); and a second application
yields a label map equal (as a Python dict, i.e. key-by-key) to the map
after the first. -/
theorem manifestLabel_props (appName manifestName version : String)
    (obj : AnyResource) (md : Metadata) (hmd : obj.metadata = some md) :
    pyGet (labelsOfRsc (manifestLabel appName manifestName version obj))
        APP_LABEL = some appName ∧
    pyGet (labelsOfRsc (manifestLabel appName manifestName version obj))
        MANIFEST_LABEL = some manifestName ∧
    pyGet (labelsOfRsc (manifestLabel appName manifestName version obj))
        VERSION_LABEL = some (manifestName ++ "-" ++ version) ∧
    (∀ k, k ≠ APP_LABEL → k ≠ MANIFEST_LABEL → k ≠ VERSION_LABEL →
      pyGet (labelsOfRsc (manifestLabel appName manifestName version obj)) k =
        pyGet (labelsOfRsc obj) k) ∧
    (∀ k, pyGet (labelsOfRsc (manifestLabel appName manifestName version
        (manifestLabel appName manifestName version obj))) k =
      pyGet (labelsOfRsc (manifestLabel appName manifestName version obj)) k) := by
  have hAM : APP_LABEL ≠ MANIFEST_LABEL := by decide
  have hAV : APP_LABEL ≠ VERSION_LABEL := by decide
  have hMV : MANIFEST_LABEL ≠ VERSION_LABEL := by decide
  set l0 := md.labels.getD [] with hl0
  set l1 := dictUpdate l0 APP_LABEL appName with hl1
  set l2 := dictUpdate l1 MANIFEST_LABEL manifestName with hl2
  set l3 := dictUpdate l2 VERSION_LABEL (manifestName ++ "-" ++ version) with hl3
  have hlab : labelsOfRsc (manifestLabel appName manifestName version obj) = l3 := by
    rw [hl3, hl2, hl1, hl0]
    simp [manifestLabel, hmd, labelsOfRsc, HashableResource.labels]
  have hA : pyGet l3 APP_LABEL = some appName := by
    rw [hl3, dictUpdate_pyGet_other _ _ _ _ hAV, hl2,
      dictUpdate_pyGet_other _ _ _ _ hAM, hl1, dictUpdate_pyGet_self]
  have hM : pyGet l3 MANIFEST_LABEL = some manifestName := by
    rw [hl3, dictUpdate_pyGet_other _ _ _ _ hMV, hl2, dictUpdate_pyGet_self]
  have hV : pyGet l3 VERSION_LABEL = some (manifestName ++ "-" ++ version) := by
    rw [hl3, dictUpdate_pyGet_self]
  refine ⟨by rw [hlab]; exact hA, by rw [hlab]; exact hM, by rw [hlab]; exact hV,
    ?_, ?_⟩
  · intro k hkA hkM hkV
    rw [hlab, hl3, dictUpdate_pyGet_other _ _ _ _ hkV, hl2,
      dictUpdate_pyGet_other _ _ _ _ hkM, hl1,
      dictUpdate_pyGet_other _ _ _ _ hkA]
    simp [labelsOfRsc, HashableResource.labels, hmd, hl0]
  · intro k
    have hlab2 : labelsOfRsc (manifestLabel appName manifestName version
        (manifestLabel appName manifestName version obj)) =
        dictUpdate (dictUpdate (dictUpdate l3 APP_LABEL appName)
          MANIFEST_LABEL manifestName) VERSION_LABEL
          (manifestName ++ "-" ++ version) := by
      rw [hl3, hl2, hl1, hl0]
      simp [manifestLabel, hmd, labelsOfRsc, HashableResource.labels]
    rw [hlab2, hlab]
    by_cases hkV : k = VERSION_LABEL
    · subst hkV
      rw [dictUpdate_pyGet_self, hV]
    · rw [dictUpdate_pyGet_other _ _ _ _ hkV]
      by_cases hkM : k = MANIFEST_LABEL
      · subst hkM
        rw [dictUpdate_pyGet_self, hM]
      · rw [dictUpdate_pyGet_other _ _ _ _ hkM]
        by_cases hkA : k = APP_LABEL
        · subst hkA
          rw [dictUpdate_pyGet_self, hA]
        · rw [dictUpdate_pyGet_other _ _ _ _ hkA]

/-- Witness for C7: a concrete Deployment-like resource with a pre-existing
label keeps it, gains the three ownership labels, and is stable under a
second application. -/
theorem manifestLabel_props_witness :
    pyGet (labelsOfRsc (manifestLabel "app" "man" "v1"
        { kind := some "Deployment",
          metadata := some { name := some "d", labels := some [("team", "x")] } }))
      APP_LABEL = some "app" ∧
    pyGet (labelsOfRsc (manifestLabel "app" "man" "v1"
        { kind := some "Deployment",
          metadata := some { name := some "d", labels := some [("team", "x")] } }))
      "team" = pyGet (labelsOfRsc
        ({ kind := some "Deployment",
           metadata := some { name := some "d", labels := some [("team", "x")] } :
          AnyResource})) "team" := by
  have h := manifestLabel_props "app" "man" "v1"
    { kind := some "Deployment",
      metadata := some { name := some "d", labels := some [("team", "x")] } }
    { name := some "d", labels := some [("team", "x")] } rfl
  exact ⟨h.1, h.2.2.2.1 "team" (by decide) (by decide) (by decide)⟩

/-- Classification of one delete failure, as `delete_resources` computes it:
"not found" in the lowered message with `ignore_not_found`, or
"(unauthorized)" in the lowered message with `ignore_unauthorized`. -/
def ignorableDelete (ignore_not_found ignore_unauthorized : Bool)
    (ex : DeleteError) : Bool :=
  let msg := ex.statusMessage.getD ex.strMsg
  (ignore_not_found && pyInStr "not found" (pyToLower msg)) ||
    (ignore_unauthorized && pyInStr "(unauthorized)" (pyToLower msg))

theorem delete_resources_cons_some (inf iua : Bool) (obj : HashableResource)
    (ex : DeleteError) (rest : List (HashableResource × Option DeleteError)) :
    Manifests.delete_resources inf iua ((obj, some ex) :: rest) =
      if ignorableDelete inf iua ex then Manifests.delete_resources inf iua rest
      else .raised obj (rest.map (fun p => p.1)) := rfl

/-- C4: `delete_resources` walks the batch in input order; a per-resource
failure whose message contains "not found" (case-insensitively) with
`ignore_not_found`, or "(unauthorized)" with `ignore_unauthorized`, is
logged and skipped and the loop continues; the loop completes exactly when
every failure is so ignorable, and the first non-ignorable failure raises
immediately, leaving the remaining resources unattempted. -/
theorem delete_resources_policy (inf iua : Bool)
    (attempts : List (HashableResource × Option DeleteError)) :
    (Manifests.delete_resources inf iua attempts = .completed ↔
      ∀ p ∈ attempts, ∀ ex, p.2 = some ex → ignorableDelete inf iua ex = true) ∧
    (∀ pre obj ex post,
      attempts = pre ++ (obj, some ex) :: post →
      (∀ p ∈ pre, ∀ ex', p.2 = some ex' → ignorableDelete inf iua ex' = true) →
      ignorableDelete inf iua ex = false →
      Manifests.delete_resources inf iua attempts =
        .raised obj (post.map (fun p => p.1))) := by
  constructor
  · induction attempts with
    | nil => simp [Manifests.delete_resources]
    | cons p rest ih =>
      rcases p with ⟨r, e⟩
      cases e with
      | none =>
        rw [show Manifests.delete_resources inf iua ((r, none) :: rest) =
          Manifests.delete_resources inf iua rest from rfl]
        rw [ih]
        constructor
        · intro h q hq ex hex
          rcases List.mem_cons.mp hq with hq | hq
          · subst hq
            simp at hex
          · exact h q hq ex hex
        · intro h q hq ex hex
          exact h q (List.mem_cons_of_mem _ hq) ex hex
      | some ex =>
        rw [delete_resources_cons_some]
        by_cases hig : ignorableDelete inf iua ex = true
        · rw [if_pos hig, ih]
          constructor
          · intro h q hq ex' hex'
            rcases List.mem_cons.mp hq with hq | hq
            · subst hq
              simp only [Option.some.injEq] at hex'
              subst hex'
              exact hig
            · exact h q hq ex' hex'
          · intro h q hq ex' hex'
            exact h q (List.mem_cons_of_mem _ hq) ex' hex'
        · rw [if_neg hig]
          constructor
          · intro h
            cases h
          · intro h
            exact absurd (h (r, some ex) (List.mem_cons_self _ _) ex rfl) hig
  · intro pre obj ex post hsplit hpre hnig
    subst hsplit
    induction pre with
    | nil =>
      simp only [List.nil_append]
      rw [delete_resources_cons_some, if_neg (by simp [hnig])]
    | cons q pre' ih =>
      rcases q with ⟨r, e⟩
      cases e with
      | none =>
        rw [List.cons_append,
          show Manifests.delete_resources inf iua
            ((r, none) :: (pre' ++ (obj, some ex) :: post)) =
            Manifests.delete_resources inf iua (pre' ++ (obj, some ex) :: post)
            from rfl]
        exact ih (fun p hp ex' hex' => hpre p (List.mem_cons_of_mem _ hp) ex' hex')
      | some ex' =>
        have hig : ignorableDelete inf iua ex' = true :=
          hpre (r, some ex') (List.mem_cons_self _ _) ex' rfl
        rw [List.cons_append, delete_resources_cons_some, if_pos hig]
        exact ih (fun p hp ex'' hex'' => hpre p (List.mem_cons_of_mem _ hp) ex'' hex'')

/-- Witness for C4: an ignorable not-found failure completes the batch; the
same failure with `ignore_not_found=False` raises at that resource. -/
theorem delete_resources_policy_witness :
    Manifests.delete_resources true false
      [(⟨{ kind := some "Pod", metadata := some { name := some "a" } }⟩,
        some { strMsg := "pods \"a\" Not Found" })] = .completed ∧
    Manifests.delete_resources false false
      [(⟨{ kind := some "Pod", metadata := some { name := some "a" } }⟩,
        some { strMsg := "pods \"a\" Not Found" })] =
      .raised ⟨{ kind := some "Pod", metadata := some { name := some "a" } }⟩ [] := by
  constructor
  · apply (delete_resources_policy true false _).1.mpr
    intro p hp ex hex
    simp only [List.mem_singleton] at hp
    subst hp
    simp only [Option.some.injEq] at hex
    subst hex
    decide
  · have h := (delete_resources_policy false false
      [(⟨{ kind := some "Pod", metadata := some { name := some "a" } }⟩,
        some { strMsg := "pods \"a\" Not Found" })]).2
      [] ⟨{ kind := some "Pod", metadata := some { name := some "a" } }⟩
      { strMsg := "pods \"a\" Not Found" } [] rfl (by simp) (by decide)
    simpa using h

/-- A container image survives the `split("/", 1)` unpacking: absent or
empty (skipped by the falsy test), or containing at least one slash. -/
def imageSplittable (c : Container) : Bool :=
  match c.image with
  | none => true
  | some img => img = "" || img.toList.contains '/'

/-- The pure effect of one successful rewrite iteration. -/
def rewriteImageTotal (reg : String) (c : Container) : Container :=
  match c.image with
  | none => c
  | some img =>
      if img = "" then c
      else
        match splitFirstSlash img.toList with
        | none => c
        | some pr => { c with image := some (reg ++ "/" ++ String.mk pr.2) }

theorem rewriteContainer_ok_of_splittable (reg : String) (c : Container)
    (h : imageSplittable c = true) :
    rewriteContainer reg c = Except.ok (rewriteImageTotal reg c) := by
  unfold rewriteContainer rewriteImageTotal
  cases hc : c.image with
  | none => rfl
  | some img =>
    dsimp only
    by_cases hemp : img = ""
    · simp [hemp]
    · rw [if_neg hemp, if_neg hemp]
      unfold imageSplittable at h
      rw [hc] at h
      have hcon : img.toList.contains '/' = true := by
        have h' : img = "" ∨ img.toList.contains '/' = true := by simpa using h
        rcases h' with h' | h'
        · exact absurd h' hemp
        · exact h'
      have hsplit : splitFirstSlash img.toList ≠ none := by
        intro hn
        have := (splitFirstSlash_none_iff img.toList).mp hn
        exact this (List.elem_iff.mp hcon)
      rcases Option.ne_none_iff_exists.mp hsplit with ⟨pr, hpr⟩
      rw [← hpr]
      unfold pySplitSlash1
      rw [← hpr]

theorem rewriteContainer_error_of_not (reg : String) (c : Container)
    (h : imageSplittable c = false) :
    rewriteContainer reg c =
      Except.error "ValueError: not enough values to unpack" := by
  unfold imageSplittable at h
  unfold rewriteContainer
  cases hc : c.image with
  | none => rw [hc] at h; simp at h
  | some img =>
    rw [hc] at h
    simp only [Bool.or_eq_false_iff] at h
    have hemp : ¬ img = "" := by
      intro hc'
      rw [hc'] at h
      simp at h
    dsimp only
    rw [if_neg hemp]
    have hsplit : splitFirstSlash img.toList = none := by
      rw [splitFirstSlash_none_iff]
      intro hmem
      have hcc : img.toList.contains '/' = true := List.elem_iff.mpr hmem
      rw [h.2] at hcc
      cases hcc
    unfold pySplitSlash1
    rw [hsplit]

theorem mapM_rewrite_ok (reg : String) (l : List Container)
    (h : ∀ c ∈ l, imageSplittable c = true) :
    l.mapM (rewriteContainer reg) =
      Except.ok (l.map (rewriteImageTotal reg)) := by
  induction l with
  | nil => rfl
  | cons c rest ih =>
    rw [List.mapM_cons,
      rewriteContainer_ok_of_splittable reg c (h c (List.mem_cons_self _ _)),
      ih (fun x hx => h x (List.mem_cons_of_mem _ hx))]
    rfl

theorem mapM_rewrite_error (reg : String) (l : List Container)
    (h : ∃ c ∈ l, imageSplittable c = false) :
    l.mapM (rewriteContainer reg) =
      Except.error "ValueError: not enough values to unpack" := by
  induction l with
  | nil => simp at h
  | cons c rest ih =>
    by_cases hc : imageSplittable c = true
    · rcases h with ⟨c', hc', hbad⟩
      rcases List.mem_cons.mp hc' with he | he
      · subst he
        rw [hc] at hbad
        cases hbad
      · rw [List.mapM_cons, rewriteContainer_ok_of_splittable reg c hc,
          ih ⟨c', he, hbad⟩]
        rfl
    · have hbad : imageSplittable c = false := by
        cases hcc : imageSplittable c
        · rfl
        · exact absurd hcc hc
      rw [List.mapM_cons, rewriteContainer_error_of_not reg c hbad]
      rfl

theorem configRegistrySpec_of_supported (obj : AnyResource) (k : String)
    (hk : obj.kind = some k)
    (hsup : k ∈ podKinds ∨ k ∈ templateKinds ∨ k ∈ cronKinds) :
    configRegistrySpec obj = obj.spec := by
  unfold configRegistrySpec
  rw [hk]
  dsimp only
  by_cases h1 : k ∈ podKinds
  · rw [if_pos h1]
  · rw [if_neg h1]
    by_cases h2 : k ∈ templateKinds
    · rw [if_pos h2]
    · rw [if_neg h2]
      rcases hsup with h | h | h
      · exact absurd h h1
      · exact absurd h h2
      · rw [if_pos h]

theorem configRegistry_ok_of_all (reg : String) (hreg : reg ≠ "")
    (obj : AnyResource) (k : String) (hk : obj.kind = some k)
    (hsup : k ∈ podKinds ∨ k ∈ templateKinds ∨ k ∈ cronKinds)
    (s : PodSpec) (hs : obj.spec = some s)
    (hall : ∀ c ∈ s.containers.getD [] ++ s.initContainers.getD [],
      imageSplittable c = true) :
    configRegistry (some reg) obj = Except.ok { obj with spec := some { s with
      containers := s.containers.map (fun l => l.map (rewriteImageTotal reg)),
      initContainers :=
        s.initContainers.map (fun l => l.map (rewriteImageTotal reg)) } } := by
  have hcs : ∀ c ∈ s.containers.getD [], imageSplittable c = true :=
    fun c hc => hall c (List.mem_append_left _ hc)
  have hics : ∀ c ∈ s.initContainers.getD [], imageSplittable c = true :=
    fun c hc => hall c (List.mem_append_right _ hc)
  unfold configRegistry
  dsimp only
  rw [if_neg hreg, configRegistrySpec_of_supported obj k hk hsup, hs]
  dsimp only
  cases hc : s.containers with
  | none =>
    dsimp only
    cases hic : s.initContainers with
    | none => rfl
    | some il =>
      dsimp only
      rw [hic] at hics
      rw [mapM_rewrite_ok reg il (by simpa using hics)]
      rfl
  | some cl =>
    dsimp only
    rw [hc] at hcs
    rw [mapM_rewrite_ok reg cl (by simpa using hcs)]
    cases hic : s.initContainers with
    | none => rfl
    | some il =>
      dsimp only
      rw [hic] at hics
      rw [mapM_rewrite_ok reg il (by simpa using hics)]
      rfl

theorem configRegistry_error_of_bad (reg : String) (hreg : reg ≠ "")
    (obj : AnyResource) (k : String) (hk : obj.kind = some k)
    (hsup : k ∈ podKinds ∨ k ∈ templateKinds ∨ k ∈ cronKinds)
    (s : PodSpec) (hs : obj.spec = some s)
    (hbad : ∃ c ∈ s.containers.getD [] ++ s.initContainers.getD [],
      imageSplittable c = false) :
    configRegistry (some reg) obj =
      Except.error "ValueError: not enough values to unpack" := by
  unfold configRegistry
  dsimp only
  rw [if_neg hreg, configRegistrySpec_of_supported obj k hk hsup, hs]
  dsimp only
  by_cases hbc : ∃ c ∈ s.containers.getD [], imageSplittable c = false
  · cases hc : s.containers with
    | none =>
      rw [hc] at hbc
      simp at hbc
    | some cl =>
      dsimp only
      rw [hc] at hbc
      rw [mapM_rewrite_error reg cl (by simpa using hbc)]
      rfl
  · have hcs : ∀ c ∈ s.containers.getD [], imageSplittable c = true := by
      intro c hc
      by_contra hfc
      refine hbc ⟨c, hc, ?_⟩
      cases hcc : imageSplittable c
      · rfl
      · exact absurd hcc hfc
    have hbic : ∃ c ∈ s.initContainers.getD [], imageSplittable c = false := by
      rcases hbad with ⟨c, hc, hfc⟩
      rcases List.mem_append.mp hc with hm | hm
      · rw [hcs c hm] at hfc
        cases hfc
      · exact ⟨c, hm, hfc⟩
    cases hc : s.containers with
    | none =>
      dsimp only
      cases hic : s.initContainers with
      | none =>
        rw [hic] at hbic
        simp at hbic
      | some il =>
        dsimp only
        rw [hic] at hbic
        rw [mapM_rewrite_error reg il (by simpa using hbic)]
        rfl
    | some cl =>
      dsimp only
      rw [hc] at hcs
      rw [mapM_rewrite_ok reg cl (by simpa using hcs)]
      cases hic : s.initContainers with
      | none =>
        rw [hic] at hbic
        simp at hbic
      | some il =>
        dsimp only
        rw [hic] at hbic
        rw [mapM_rewrite_error reg il (by simpa using hbic)]
        rfl

/-- C8: with a configured registry, every container (primary and init) of a
supported pod-template-bearing kind whose image contains a "/" is rewritten
to the registry, "/", and the portion of the original reference after its
first "/"; with the registry unset (None or empty) or an unsupported kind,
the resource is returned entirely unchanged. -/
theorem configRegistry_rewrite_spec :
    (∀ obj : AnyResource, configRegistry none obj = Except.ok obj) ∧
    (∀ obj : AnyResource, configRegistry (some "") obj = Except.ok obj) ∧
    (∀ (reg : String) (obj : AnyResource), obj.kind = none →
      configRegistry (some reg) obj = Except.ok obj) ∧
    (∀ (reg : String) (obj : AnyResource) (k : String), obj.kind = some k →
      k ∉ podKinds → k ∉ templateKinds → k ∉ cronKinds →
      configRegistry (some reg) obj = Except.ok obj) ∧
    (∀ (reg : String), reg ≠ "" → ∀ (obj : AnyResource) (k : String),
      obj.kind = some k →
      (k ∈ podKinds ∨ k ∈ templateKinds ∨ k ∈ cronKinds) →
      ∀ s : PodSpec, obj.spec = some s →
      (∀ c ∈ s.containers.getD [] ++ s.initContainers.getD [],
        imageSplittable c = true) →
      configRegistry (some reg) obj = Except.ok { obj with spec := some { s with
        containers := s.containers.map (fun l => l.map (rewriteImageTotal reg)),
        initContainers :=
          s.initContainers.map (fun l => l.map (rewriteImageTotal reg)) } }) ∧
    (∀ (reg : String) (c : Container) (img : String), c.image = some img →
      img ≠ "" → '/' ∈ img.toList →
      rewriteImageTotal reg c =
        { c with image := some (reg ++ "/" ++ afterFirstSlash img) }) := by
  refine ⟨fun obj => rfl, fun obj => rfl, ?_, ?_, ?_, ?_⟩
  · intro reg obj hk
    have hspec : configRegistrySpec obj = none := by
      unfold configRegistrySpec
      rw [hk]
    unfold configRegistry
    dsimp only
    by_cases hr : reg = ""
    · rw [if_pos hr]
    · rw [if_neg hr, hspec]
  · intro reg obj k hk h1 h2 h3
    have hspec : configRegistrySpec obj = none := by
      unfold configRegistrySpec
      rw [hk]
      dsimp only
      rw [if_neg h1, if_neg h2, if_neg h3]
    unfold configRegistry
    dsimp only
    by_cases hr : reg = ""
    · rw [if_pos hr]
    · rw [if_neg hr, hspec]
  · intro reg hreg obj k hk hsup s hs hall
    exact configRegistry_ok_of_all reg hreg obj k hk hsup s hs hall
  · intro reg c img himg hemp hmem
    unfold rewriteImageTotal afterFirstSlash
    rw [himg]
    dsimp only
    rw [if_neg hemp]
    have hne : splitFirstSlash img.toList ≠ none := by
      intro hn
      exact ((splitFirstSlash_none_iff img.toList).mp hn) hmem
    rcases Option.ne_none_iff_exists.mp hne with ⟨pr, hpr⟩
    rw [← hpr]

/-- Witness for C8: rewriting image "a/b/c:1" of a Deployment with registry
"R" yields "R/b/c:1". -/
theorem configRegistry_rewrite_spec_witness :
    configRegistry (some "R")
      { kind := some "Deployment",
        spec := some { containers := some [{ image := some "a/b/c:1" }] } } =
      Except.ok
        { kind := some "Deployment",
          spec := some
            { containers := some [{ image := some "R/b/c:1" }],
              initContainers := none } } := by
  have h := configRegistry_rewrite_spec.2.2.2.2.1 "R" (by decide)
    { kind := some "Deployment",
      spec := some { containers := some [{ image := some "a/b/c:1" }] } }
    "Deployment" rfl (by decide)
    { containers := some [{ image := some "a/b/c:1" }] } rfl (by decide)
  rw [h]
  rfl

/-- C10: for a ConfigRegistry-supported kind with a configured registry, a
container whose non-empty image reference has no "/" at all makes the call
raise the unpacking `ValueError` rather than return; the rewrite loop
completes normally exactly when every non-empty container image contains at
least one "/". -/
theorem configRegistry_unsplittable_raises (reg : String) (hreg : reg ≠ "")
    (obj : AnyResource) (k : String) (hk : obj.kind = some k)
    (hsup : k ∈ podKinds ∨ k ∈ templateKinds ∨ k ∈ cronKinds)
    (s : PodSpec) (hs : obj.spec = some s) :
    ((∃ obj', configRegistry (some reg) obj = Except.ok obj') ↔
      ∀ c ∈ s.containers.getD [] ++ s.initContainers.getD [],
        imageSplittable c = true) ∧
    (∀ c ∈ s.containers.getD [] ++ s.initContainers.getD [],
      ∀ img, c.image = some img → img ≠ "" → '/' ∉ img.toList →
      configRegistry (some reg) obj =
        Except.error "ValueError: not enough values to unpack") := by
  constructor
  · constructor
    · intro hok
      by_contra hnall
      push_neg at hnall
      rcases hnall with ⟨c, hc, hfc⟩
      have hbad : imageSplittable c = false := by
        cases hcc : imageSplittable c
        · rfl
        · exact absurd hcc hfc
      have herr := configRegistry_error_of_bad reg hreg obj k hk hsup s hs
        ⟨c, hc, hbad⟩
      rcases hok with ⟨obj', hok⟩
      rw [herr] at hok
      cases hok
    · intro hall
      exact ⟨_, configRegistry_ok_of_all reg hreg obj k hk hsup s hs hall⟩
  · intro c hc img himg hemp hmem
    have hbad : imageSplittable c = false := by
      unfold imageSplittable
      rw [himg]
      dsimp only
      have h1 : decide (img = "") = false := by
        simp [hemp]
      have h2 : img.toList.contains '/' = false := by
        cases hcc : img.toList.contains '/'
        · rfl
        · exact absurd (List.elem_iff.mp hcc) hmem
      rw [h1, h2]
      rfl
    exact configRegistry_error_of_bad reg hreg obj k hk hsup s hs ⟨c, hc, hbad⟩

/-- Witness for C10: a Deployment container with image "nginx:latest" (no
slash) and registry "R" raises the unpacking error. -/
theorem configRegistry_unsplittable_raises_witness :
    configRegistry (some "R")
      { kind := some "Deployment",
        spec := some { containers := some [{ image := some "nginx:latest" }] } } =
      Except.error "ValueError: not enough values to unpack" := by
  exact (configRegistry_unsplittable_raises "R" (by decide)
    { kind := some "Deployment",
      spec := some { containers := some [{ image := some "nginx:latest" }] } }
    "Deployment" rfl (by decide)
    { containers := some [{ image := some "nginx:latest" }] } rfl).2
    { image := some "nginx:latest" } (by decide) "nginx:latest" rfl
    (by decide) (by decide)

/-- C2: wrapped resources with equal (kind, namespace, name) identity are
equal and hash-equal regardless of other content, and the resolved sequence
returned by `resources` holds exactly one resource per identity — the first
encountered in (additions in manipulation-list order, then statics in
sorted-filename order) —, the dedup being a total collapse rather than an
error. -/
theorem resources_dedup_spec (m : ManifestsModel) :
    (∀ r1 r2 : HashableResource, r1.uniq = r2.uniq →
      HashableResource.eqb r1 r2 = true ∧ HashableResource.eqb r2 r1 = true ∧
      r1.hashVal = r2.hashVal) ∧
    Manifests.resources m = firstOccurrences (Manifests.preDedup m) ∧
    (Manifests.resources m).Pairwise (fun a b => a.uniq ≠ b.uniq) ∧
    (∀ u, (∃ x ∈ Manifests.preDedup m, x.uniq = u) ↔
      ∃ x ∈ Manifests.resources m, x.uniq = u) ∧
    (∀ x ∈ Manifests.resources m,
      (Manifests.preDedup m).find? (fun y => y.uniq = x.uniq) = some x) := by
  have hres : Manifests.resources m = firstOccurrences (Manifests.preDedup m) :=
    odKeys_eq_firstOccurrences _
  refine ⟨?_, hres, ?_, ?_, ?_⟩
  · intro r1 r2 h
    refine ⟨?_, ?_, ?_⟩
    · simp [HashableResource.eqb, h]
    · simp [HashableResource.eqb, h]
    · simp [HashableResource.hashVal, h]
  · rw [hres]
    exact firstOccurrences_pairwise _
  · intro u
    rw [hres]
    exact (firstOccurrences_mem_uniq _ u).symm
  · intro x hx
    rw [hres] at hx
    exact firstOccurrences_find? _ hx

/-- Witness for C2: an addition and a static share the identity
(Pod, None, "a") with differing content; they are equal and hash-equal as
wrapped resources, and the resolver keeps the addition (the first
encountered), finding it as the first occurrence. -/
theorem resources_dedup_spec_witness :
    HashableResource.eqb
      ⟨{ kind := some "Pod", metadata := some { name := some "a" } }⟩
      ⟨{ kind := some "Pod",
         metadata := some { name := some "a", labels := some [("x", "y")] } }⟩
      = true ∧
    (⟨{ kind := some "Pod", metadata := some { name := some "a" } }⟩ :
      HashableResource).hashVal =
    (⟨{ kind := some "Pod",
        metadata := some { name := some "a", labels := some [("x", "y")] } }⟩ :
      HashableResource).hashVal ∧
    (Manifests.preDedup
      { manipulations := [Manipulation.addition
          [some { kind := some "Pod", metadata := some { name := some "a" } }]],
        staticResources :=
          [{ kind := some "Pod",
             metadata := some { name := some "a", labels := some [("x", "y")] } },
           { kind := some "Pod", metadata := some { name := some "b" } }] }).find?
      (fun y => y.uniq =
        (⟨{ kind := some "Pod", metadata := some { name := some "a" } }⟩ :
          HashableResource).uniq) =
      some ⟨{ kind := some "Pod", metadata := some { name := some "a" } }⟩ := by
  have h := resources_dedup_spec
    { manipulations := [Manipulation.addition
        [some { kind := some "Pod", metadata := some { name := some "a" } }]],
      staticResources :=
        [{ kind := some "Pod",
           metadata := some { name := some "a", labels := some [("x", "y")] } },
         { kind := some "Pod", metadata := some { name := some "b" } }] }
  have h1 := h.1
    ⟨{ kind := some "Pod", metadata := some { name := some "a" } }⟩
    ⟨{ kind := some "Pod",
       metadata := some { name := some "a", labels := some [("x", "y")] } }⟩
    (by decide)
  refine ⟨h1.1, h1.2.2, ?_⟩
  exact h.2.2.2.2
    ⟨{ kind := some "Pod", metadata := some { name := some "a" } }⟩
    (by decide)

theorem installedLoop_skip (fetch : HashableResource → Option AnyResource)
    (l1 : List HashableResource) (obj : HashableResource)
    (l2 : List HashableResource) (h : fetch obj = none) :
    installedLoop fetch (l1 ++ obj :: l2) = installedLoop fetch (l1 ++ l2) := by
  induction l1 with
  | nil =>
    simp only [List.nil_append, installedLoop, h]
  | cons a rest ih =>
    cases hf : fetch a with
    | none => simp only [List.cons_append, installedLoop, List.append_eq, hf, ih]
    | some rsc =>
      simp only [List.cons_append, installedLoop, List.append_eq, hf, ih]

theorem installedLoop_eq_filterMap (fetch : HashableResource → Option AnyResource)
    (l : List HashableResource) :
    installedLoop fetch l =
      l.filterMap (fun o => (fetch o).map HashableResource.mk) := by
  induction l with
  | nil => rfl
  | cons a rest ih =>
    cases h : fetch a with
    | none => simp [installedLoop, h, List.filterMap_cons, ih]
    | some rsc => simp [installedLoop, h, List.filterMap_cons, ih]

/-- C5: each expected resource is fetched by identity and a per-resource
failure only skips that resource (the rest are still processed); the result
holds exactly the successfully fetched resources in their live re-fetched
representation; `status` and the `unready` lines are drawn only from that
result, so an expected resource absent from the cluster never appears in
any of them. -/
theorem installed_resources_spec (name : String)
    (expected : List HashableResource)
    (fetch : HashableResource → Option AnyResource) :
    (∀ l1 obj l2, fetch obj = none →
      Manifests.installed_resources (l1 ++ obj :: l2) fetch =
        Manifests.installed_resources (l1 ++ l2) fetch) ∧
    installedLoop fetch expected =
      expected.filterMap (fun o => (fetch o).map HashableResource.mk) ∧
    (∀ x ∈ Manifests.installed_resources expected fetch,
      ∃ o ∈ expected, ∃ rsc, fetch o = some rsc ∧ x = HashableResource.mk rsc) ∧
    (∀ x ∈ Manifests.status expected fetch,
      x ∈ Manifests.installed_resources expected fetch) ∧
    (∀ line ∈ Collector.unready name expected fetch,
      ∃ obj ∈ Manifests.status expected fetch, ∃ cond ∈ obj.status_conditions,
        Manifests.is_ready cond = false ∧
        line = name ++ ": " ++ obj.toStr ++ " is not " ++ cond.type) := by
  refine ⟨?_, installedLoop_eq_filterMap fetch expected, ?_, ?_, ?_⟩
  · intro l1 obj l2 h
    unfold Manifests.installed_resources
    rw [installedLoop_skip fetch l1 obj l2 h]
  · intro x hx
    unfold Manifests.installed_resources at hx
    rw [odKeys_eq_firstOccurrences] at hx
    have hx' := firstOccurrences_subset hx
    rw [installedLoop_eq_filterMap] at hx'
    rcases List.mem_filterMap.mp hx' with ⟨o, ho, hmap⟩
    cases hf : fetch o with
    | none => rw [hf] at hmap; cases hmap
    | some rsc =>
      rw [hf] at hmap
      simp only [Option.map_some', Option.some.injEq] at hmap
      exact ⟨o, ho, rsc, hf, hmap.symm⟩
  · intro x hx
    exact List.mem_of_mem_filter hx
  · intro line hline
    unfold Collector.unready at hline
    rw [List.mem_mergeSort] at hline
    rcases List.mem_filterMap.mp hline with ⟨t, ht, hmk⟩
    unfold Collector.all_conditions at ht
    rcases List.mem_flatMap.mp ht with ⟨obj, hobj, htm⟩
    rcases List.mem_map.mp htm with ⟨cond, hcond, hteq⟩
    subst hteq
    by_cases hr : Manifests.is_ready cond = false
    · rw [if_pos hr] at hmk
      simp only [Option.some.injEq] at hmk
      exact ⟨obj, hobj, cond, hcond, hr, hmk.symm⟩
    · rw [if_neg hr] at hmk
      cases hmk

/-- Witness for C5: one present and one absent Secret; the absent one is
skipped while the present one is fetched live, and the loop equals the
filterMap characterization. -/
theorem installed_resources_spec_witness :
    Manifests.installed_resources
      [⟨{ kind := some "Secret", metadata := some { name := some "present" } }⟩,
       ⟨{ kind := some "Secret", metadata := some { name := some "absent" } }⟩]
      (fun r => if r.name = some "present"
        then some { kind := some "Secret",
                    metadata := some { name := some "present" } }
        else none) =
      Manifests.installed_resources
      [⟨{ kind := some "Secret", metadata := some { name := some "present" } }⟩]
      (fun r => if r.name = some "present"
        then some { kind := some "Secret",
                    metadata := some { name := some "present" } }
        else none) := by
  have h := (installed_resources_spec "m"
    [⟨{ kind := some "Secret", metadata := some { name := some "present" } }⟩,
     ⟨{ kind := some "Secret", metadata := some { name := some "absent" } }⟩]
    (fun r => if r.name = some "present"
      then some { kind := some "Secret",
                  metadata := some { name := some "present" } }
      else none)).1
    [⟨{ kind := some "Secret", metadata := some { name := some "present" } }⟩]
    ⟨{ kind := some "Secret", metadata := some { name := some "absent" } }⟩
    [] (by decide)
  exact h

theorem pairwise_uniq_eq {l : List HashableResource}
    (h : l.Pairwise (fun a b => a.uniq ≠ b.uniq)) {a b : HashableResource}
    (ha : a ∈ l) (hb : b ∈ l) (hu : a.uniq = b.uniq) : a = b := by
  induction l with
  | nil => cases ha
  | cons x rest ih =>
    rcases List.pairwise_cons.mp h with ⟨hx, hrest⟩
    rcases List.mem_cons.mp ha with ha' | ha' <;>
      rcases List.mem_cons.mp hb with hb' | hb'
    · rw [ha', hb']
    · subst ha'
      exact absurd hu (hx b hb')
    · subst hb'
      exact absurd hu.symm (hx a ha')
    · exact ih hrest ha' hb'

theorem memById_iff (r : HashableResource) (l : List HashableResource) :
    memById r l = true ↔ ∃ x ∈ l, x.uniq = r.uniq := by
  unfold memById
  rw [List.any_eq_true]
  constructor
  · rintro ⟨x, hx, hxe⟩
    exact ⟨x, hx, by simpa using hxe⟩
  · rintro ⟨x, hx, hxe⟩
    exact ⟨x, hx, by simpa using hxe⟩

/-- Whether the live resource's ownership labels differ from the expected
match's, as `conflicting_resources` compares them. -/
def ownershipDiffers (obj mtch : HashableResource) : Prop :=
  pyGet obj.labels APP_LABEL ≠ pyGet mtch.labels APP_LABEL ∨
    pyGet obj.labels MANIFEST_LABEL ≠ pyGet mtch.labels MANIFEST_LABEL

instance (obj mtch : HashableResource) : Decidable (ownershipDiffers obj mtch) := by
  unfold ownershipDiffers
  infer_instance

theorem conflictLoop_error_of_unmatched (expected installed : List HashableResource)
    (h : ∃ obj ∈ installed,
      expected.find? (fun m => HashableResource.eqb m obj) = none) :
    ∃ e, conflictLoop expected installed = Except.error e := by
  induction installed with
  | nil => simp at h
  | cons a rest ih =>
    rcases h with ⟨obj, hobj, hfind⟩
    rcases List.mem_cons.mp hobj with he | he
    · subst he
      refine ⟨"Unexpected resource installed: " ++ obj.toStr, ?_⟩
      unfold conflictLoop
      rw [hfind]
    · rcases ih ⟨obj, he, hfind⟩ with ⟨e, hrest⟩
      unfold conflictLoop
      cases hf : expected.find? (fun m => HashableResource.eqb m a) with
      | none => exact ⟨_, rfl⟩
      | some mtch =>
        rw [hrest]
        exact ⟨e, rfl⟩

theorem conflictLoop_ok_mem (expected : List HashableResource) :
    ∀ installed out, conflictLoop expected installed = Except.ok out →
    ∀ x, x ∈ out ↔ ∃ obj ∈ installed, ∃ mtch,
      expected.find? (fun m => HashableResource.eqb m obj) = some mtch ∧
      ownershipDiffers obj mtch ∧ x = mtch := by
  intro installed
  induction installed with
  | nil =>
    intro out h x
    unfold conflictLoop at h
    cases h
    simp
  | cons a rest ih =>
    intro out h x
    unfold conflictLoop at h
    cases hf : expected.find? (fun m => HashableResource.eqb m a) with
    | none => rw [hf] at h; cases h
    | some mtch =>
      rw [hf] at h
      cases ht : conflictLoop expected rest with
      | error e => rw [ht] at h; cases h
      | ok tail =>
        rw [ht] at h
        simp only [Except.ok.injEq] at h
        subst h
        rw [List.mem_append]
        constructor
        · intro hx
          rcases hx with hx | hx
          · by_cases hd : ownershipDiffers a mtch
            · rw [if_pos (by exact hd)] at hx
              simp only [List.mem_singleton] at hx
              exact ⟨a, List.mem_cons_self _ _, mtch, hf, hd, hx⟩
            · rw [if_neg (by exact hd)] at hx
              cases hx
          · rcases (ih tail ht x).mp hx with ⟨obj, hobj, m', hm', hd', hx'⟩
            exact ⟨obj, List.mem_cons_of_mem _ hobj, m', hm', hd', hx'⟩
        · rintro ⟨obj, hobj, m', hm', hd', hx'⟩
          rcases List.mem_cons.mp hobj with he | he
          · subst he
            rw [hf] at hm'
            cases hm'
            left
            rw [if_pos (by exact hd')]
            simp [hx']
          · right
            exact (ih tail ht x).mpr ⟨obj, he, m', hm', hd', hx'⟩

/-- C3: classifying `installed`, a live resource with no identity match in
the expected set raises the invariant-violation domain error; otherwise a
live resource's identity lands in the conflicting set exactly when its
application or manifest ownership label differs from the matching expected
resource's, so label-matching resources are excluded. -/
theorem conflicting_resources_spec (expected installed : List HashableResource)
    (hids : installed.Pairwise (fun a b => a.uniq ≠ b.uniq)) :
    ((∃ obj ∈ installed,
        expected.find? (fun m => HashableResource.eqb m obj) = none) →
      ∃ e, Manifests.conflicting_resources expected installed =
        Except.error e) ∧
    (∀ out, Manifests.conflicting_resources expected installed = Except.ok out →
      ∀ obj ∈ installed, ∀ mtch,
        expected.find? (fun m => HashableResource.eqb m obj) = some mtch →
        (memById obj out = true ↔ ownershipDiffers obj mtch)) := by
  constructor
  · intro h
    rcases conflictLoop_error_of_unmatched expected installed h with ⟨e, he⟩
    refine ⟨e, ?_⟩
    unfold Manifests.conflicting_resources
    rw [he]
  · intro out hout obj hobj mtch hfind
    unfold Manifests.conflicting_resources at hout
    cases hloop : conflictLoop expected installed with
    | error e => rw [hloop] at hout; cases hout
    | ok hits =>
      rw [hloop] at hout
      simp only [Except.ok.injEq] at hout
      subst hout
      have hmu : mtch.uniq = obj.uniq := by
        have hfs := List.find?_some hfind
        have h' : obj.uniq = mtch.uniq := by
          simpa [HashableResource.eqb] using hfs
        exact h'.symm
      constructor
      · intro hmem
        rcases (memById_iff obj (odKeys hits)).mp hmem with ⟨x, hx, hxu⟩
        rw [odKeys_eq_firstOccurrences] at hx
        have hx' := firstOccurrences_subset hx
        rcases (conflictLoop_ok_mem expected installed hits hloop x).mp hx'
          with ⟨obj', hobj', m', hm', hd', hx''⟩
        have hou : obj'.uniq = obj.uniq := by
          have hfs' := List.find?_some hm'
          have hmu' : obj'.uniq = m'.uniq := by
            simpa [HashableResource.eqb] using hfs'
          rw [hmu', ← hx'']
          exact hxu
        have hoe : obj' = obj := pairwise_uniq_eq hids hobj' hobj hou
        subst hoe
        rw [hfind] at hm'
        cases hm'
        subst hx''
        exact hd'
      · intro hd
        apply (memById_iff obj (odKeys hits)).mpr
        have hmem : mtch ∈ hits :=
          (conflictLoop_ok_mem expected installed hits hloop mtch).mpr
            ⟨obj, hobj, mtch, hfind, hd, rfl⟩
        rcases (firstOccurrences_mem_uniq hits mtch.uniq).mpr
          ⟨mtch, hmem, rfl⟩ with ⟨y, hy, hyu⟩
        rw [← odKeys_eq_firstOccurrences] at hy
        exact ⟨y, hy, by rw [hyu, hmu]⟩

/-- Sample expected ServiceAccount for the C3 witness, owned by "app". -/
def saExpected : HashableResource :=
  ⟨{ kind := some "ServiceAccount",
     metadata := some
       { name := some "sa",
         labels := some [(APP_LABEL, "app"), (MANIFEST_LABEL, "m")] } }⟩

/-- Sample live ServiceAccount for the C3 witness: same identity, owned by a
different application. -/
def saConflict : HashableResource :=
  ⟨{ kind := some "ServiceAccount",
     metadata := some
       { name := some "sa",
         labels := some [(APP_LABEL, "other"), (MANIFEST_LABEL, "m")] } }⟩

/-- Sample installed resource with no expected match for the C3 witness. -/
def podUnexpected : HashableResource :=
  ⟨{ kind := some "Pod", metadata := some { name := some "x" } }⟩

/-- Witness for C3: a live ServiceAccount labelled for a different
application than the expected one is classified conflicting; an installed
resource with no expected identity match raises. -/
theorem conflicting_resources_spec_witness :
    memById saConflict [saExpected] = true ∧
    (∃ e, Manifests.conflicting_resources [] [podUnexpected] =
      Except.error e) := by
  constructor
  · have h := (conflicting_resources_spec [saExpected] [saConflict]
      (by simp)).2 [saExpected] rfl saConflict (by simp) saExpected rfl
    exact h.mpr (by decide)
  · exact (conflicting_resources_spec [] [podUnexpected] (by simp)).1
      ⟨podUnexpected, by simp, rfl⟩

theorem kind_eq_of_uniq_eq {x y : HashableResource} (h : x.uniq = y.uniq) :
    x.kind = y.kind :=
  congrArg Prod.fst h

theorem memById_congr {x y : HashableResource} (l : List HashableResource)
    (h : x.uniq = y.uniq) : memById x l = memById y l := by
  unfold memById
  simp only [h]

theorem kindAllowed_congr (fr : List String) {x y : HashableResource}
    (h : x.uniq = y.uniq) : kindAllowed fr x = kindAllowed fr y := by
  unfold kindAllowed
  rw [kind_eq_of_uniq_eq h]

theorem bool_not_true {b : Bool} : ¬ b = true ↔ b = false := by
  cases b <;> simp

theorem memById_filter_iff (r : HashableResource) (l : List HashableResource)
    (p : HashableResource → Bool)
    (hp : ∀ x y : HashableResource, x.uniq = y.uniq → p x = p y) :
    memById r (l.filter p) = true ↔ (p r = true ∧ memById r l = true) := by
  rw [memById_iff]
  constructor
  · rintro ⟨x, hx, hxu⟩
    have hx' := List.mem_of_mem_filter hx
    have hpx := List.of_mem_filter hx
    exact ⟨(hp x r hxu) ▸ hpx, (memById_iff r l).mpr ⟨x, hx', hxu⟩⟩
  · rintro ⟨hpr, hmem⟩
    rcases (memById_iff r l).mp hmem with ⟨x, hx, hxu⟩
    exact ⟨x, List.mem_filter.mpr ⟨hx, (hp x r hxu).symm ▸ hpr⟩, hxu⟩

theorem memById_inter_iff (r : HashableResource)
    (a b : List HashableResource) :
    memById r (interById a b) = true ↔
      (memById r a = true ∧ memById r b = true) := by
  unfold interById
  rw [memById_filter_iff r a (fun x => memById x b)
    (fun x y h => memById_congr b h)]
  tauto

theorem memById_diff_iff (r : HashableResource) (a b : List HashableResource) :
    memById r (diffById a b) = true ↔
      (memById r a = true ∧ memById r b = false) := by
  unfold diffById
  rw [memById_filter_iff r a (fun x => !(memById x b))
    (fun x y h => by dsimp only; rw [memById_congr b h])]
  rw [Bool.not_eq_true']
  tauto

/-- C1: when conflict classification succeeds, the analysis of one manifest
computes `correct = expected ∩ (installed − conflicting)`,
`extra = labelled − expected` and
`missing = expected − (installed − conflicting)` (with `conflicting` the
classification output), all four sets filtered by the case-insensitive kind
allow-list — stated here as identity-membership equivalences, the notion of
membership Python's identity-hashed frozensets use. -/
theorem analyze_resources_sets (expected installed labelled : List HashableResource)
    (filter_resources : List String) (conf : List HashableResource)
    (hconf : Manifests.conflicting_resources expected installed =
      Except.ok conf) :
    ∃ a, Collector.analyzeOne expected installed labelled filter_resources =
      Except.ok a ∧
    (∀ r, memById r a.conflicting = true ↔
      (kindAllowed filter_resources r = true ∧ memById r conf = true)) ∧
    (∀ r, memById r a.correct = true ↔
      (kindAllowed filter_resources r = true ∧ memById r expected = true ∧
       memById r installed = true ∧ memById r conf = false)) ∧
    (∀ r, memById r a.extra = true ↔
      (kindAllowed filter_resources r = true ∧ memById r labelled = true ∧
       memById r expected = false)) ∧
    (∀ r, memById r a.missing = true ↔
      (kindAllowed filter_resources r = true ∧ memById r expected = true ∧
       ¬ (memById r installed = true ∧ memById r conf = false))) := by
  have heq : Collector.analyzeOne expected installed labelled filter_resources =
      Except.ok ⟨conf.filter (kindAllowed filter_resources),
        (interById expected (diffById installed conf)).filter
          (kindAllowed filter_resources),
        (diffById labelled expected).filter (kindAllowed filter_resources),
        (diffById expected (diffById installed conf)).filter
          (kindAllowed filter_resources)⟩ := by
    unfold Collector.analyzeOne
    rw [hconf]
    rfl
  refine ⟨_, heq, ?_, ?_, ?_, ?_⟩
  · intro r
    exact memById_filter_iff r conf _ (fun x y h => kindAllowed_congr _ h)
  · intro r
    rw [memById_filter_iff r _ _ (fun x y h => kindAllowed_congr _ h),
      memById_inter_iff, memById_diff_iff]
  · intro r
    rw [memById_filter_iff r _ _ (fun x y h => kindAllowed_congr _ h),
      memById_diff_iff]
  · intro r
    rw [memById_filter_iff r _ _ (fun x y h => kindAllowed_congr _ h),
      memById_diff_iff]
    constructor
    · rintro ⟨hk, hexp, hdiff⟩
      refine ⟨hk, hexp, ?_⟩
      rintro ⟨hi, hc⟩
      have hture : memById r (diffById installed conf) = true :=
        (memById_diff_iff r installed conf).mpr ⟨hi, hc⟩
      rw [hture] at hdiff
      cases hdiff
    · rintro ⟨hk, hexp, hni⟩
      refine ⟨hk, hexp, ?_⟩
      cases hd : memById r (diffById installed conf)
      · rfl
      · exact absurd ((memById_diff_iff r installed conf).mp hd) hni

/-- Sample expected resources for the C1 witness. -/
def rA : HashableResource :=
  ⟨{ kind := some "ServiceAccount", metadata := some { name := some "a" } }⟩

/-- Sample declared-but-absent resource for the C1 witness. -/
def rB : HashableResource :=
  ⟨{ kind := some "Secret", metadata := some { name := some "b" } }⟩

/-- Sample orphaned labelled resource for the C1 witness. -/
def rC : HashableResource :=
  ⟨{ kind := some "Deployment", metadata := some { name := some "c" } }⟩

/-- Witness for C1: with expected `[rA, rB]`, installed `[rA]`, labelled
`[rA, rC]` and no kind filter, `rA` is correct, `rC` extra, `rB` missing. -/
theorem analyze_resources_sets_witness :
    ∃ a, Collector.analyzeOne [rA, rB] [rA] [rA, rC] [] = Except.ok a ∧
      memById rA a.correct = true ∧ memById rC a.extra = true ∧
      memById rB a.missing = true := by
  rcases analyze_resources_sets [rA, rB] [rA] [rA, rC] [] [] rfl with
    ⟨a, ha, _, hcor, hex, hmis⟩
  refine ⟨a, ha, ?_, ?_, ?_⟩
  · exact (hcor rA).mpr ⟨by decide, by decide, by decide, by decide⟩
  · exact (hex rC).mpr ⟨by decide, by decide, by decide⟩
  · exact (hmis rB).mpr ⟨by decide, by decide, by decide⟩

/-- C9 (amended): during loading, a non-mapping document, or a mapping
document lacking a truthy `kind` **or** lacking a truthy `apiVersion`, is
excluded from the parsed resource list with exactly one logged warning and
no exception of its own (the code skips a document missing either field, so
a mapping carrying only `kind` IS excluded); a mapping with a truthy
`apiVersion` and a truthy non-"List" string `kind` is kept. -/
theorem flatten_exclusions (fuel : Nat) (d : YVal) (rest : List YVal) :
    (∀ fields, d = YVal.mapping fields →
      (truthyGet fields "kind" = false ∨ truthyGet fields "apiVersion" = false) →
      flatten fuel (d :: rest) = (flatten fuel rest).map
        (fun t => ⟨t.resources, LoadWarning.nonK8s d :: t.warnings⟩)) ∧
    ((∀ fields, d ≠ YVal.mapping fields) →
      flatten fuel (d :: rest) = (flatten fuel rest).map
        (fun t => ⟨t.resources, LoadWarning.nonDict d :: t.warnings⟩)) ∧
    (∀ fields s, d = YVal.mapping fields →
      truthyGet fields "apiVersion" = true →
      yGet fields "kind" = some (YVal.str s) → s ≠ "" →
      s.endsWith "List" = false →
      flatten fuel (d :: rest) = (flatten fuel rest).map
        (fun t => ⟨fields :: t.resources, t.warnings⟩)) := by
  refine ⟨?_, ?_, ?_⟩
  · intro fields hd hskip
    subst hd
    have hcond : (!truthyGet fields "kind" || !truthyGet fields "apiVersion")
        = true := by
      rcases hskip with h | h <;> simp [h]
    have hclass : classifyDoc (YVal.mapping fields) = DocClass.nonK8s := by
      unfold classifyDoc
      dsimp only
      rw [if_pos hcond]
    rw [flatten_eq_step fuel (YVal.mapping fields :: rest),
      flatten_eq_step fuel rest]
    exact flattenStep_cons_ok _ _ rest
      ⟨[], [LoadWarning.nonK8s (YVal.mapping fields)]⟩
      (by unfold flattenHead; rw [hclass])
  · intro hnm
    have hclass : classifyDoc d = DocClass.nonDict := by
      cases d with
      | mapping fields => exact absurd rfl (hnm fields)
      | list items => rfl
      | str s => rfl
      | num n => rfl
      | bool b => rfl
      | null => rfl
    rw [flatten_eq_step fuel (d :: rest), flatten_eq_step fuel rest]
    exact flattenStep_cons_ok _ _ rest ⟨[], [LoadWarning.nonDict d]⟩
      (by unfold flattenHead; rw [hclass])
  · intro fields s hd hapi hkind hs hlist
    subst hd
    have htk : truthyGet fields "kind" = true := by
      unfold truthyGet
      rw [hkind]
      simpa [pyTruthyY] using hs
    have hcond : (!truthyGet fields "kind" || !truthyGet fields "apiVersion")
        = false := by
      rw [htk, hapi]
      rfl
    have hclass : classifyDoc (YVal.mapping fields) = DocClass.keep fields := by
      unfold classifyDoc
      dsimp only
      rw [if_neg (by rw [hcond]; exact Bool.false_ne_true), hkind]
      dsimp only
      rw [if_neg (bool_not_true.mpr hlist)]
    rw [flatten_eq_step fuel (YVal.mapping fields :: rest),
      flatten_eq_step fuel rest]
    exact flattenStep_cons_ok _ _ rest ⟨[fields], []⟩
      (by unfold flattenHead; rw [hclass])

/-- Counterexample for C9: the mapping document `{kind: Pod}` carries a
truthy `kind` but no `apiVersion`; the loader excludes it (empty resource
list) with a non-kubernetes warning, where the claim says a document
carrying one of the two fields is not excluded. -/
theorem flatten_kind_without_apiVersion_excluded :
    truthyGet [("kind", YVal.str "Pod")] "kind" = true ∧
    flatten 1 [YVal.mapping [("kind", YVal.str "Pod")]] =
      Except.ok ⟨[], [LoadWarning.nonK8s
        (YVal.mapping [("kind", YVal.str "Pod")])]⟩ :=
  ⟨rfl, rfl⟩

/-- Witness for C9 (amended): a mapping carrying both truthy fields and a
non-"List" kind is kept; a non-mapping document is excluded with a
warning. -/
theorem flatten_exclusions_witness :
    flatten 1 [YVal.mapping [("apiVersion", YVal.str "v1"),
      ("kind", YVal.str "Pod")]] =
      Except.ok ⟨[[("apiVersion", YVal.str "v1"), ("kind", YVal.str "Pod")]],
        []⟩ ∧
    flatten 1 [YVal.str "oops"] =
      Except.ok ⟨[], [LoadWarning.nonDict (YVal.str "oops")]⟩ := by
  constructor
  · have h := (flatten_exclusions 1
      (YVal.mapping [("apiVersion", YVal.str "v1"), ("kind", YVal.str "Pod")])
      []).2.2
      [("apiVersion", YVal.str "v1"), ("kind", YVal.str "Pod")] "Pod"
      rfl rfl rfl (by decide) (by decide)
    rw [h]
    rfl
  · have h := (flatten_exclusions 1 (YVal.str "oops") []).2.1
      (fun fields hc => by cases hc)
    rw [h]
    rfl

end OpsManifests
